import Mathlib

/-!
Verification of the lux/cli blockchain-migration tooling against its
specification.

The development shallowly embeds the Python sources:

* `fix_genesis_coinbase.py` — the genesis address normalizer
  (`fix_coinbase_in_json`, `fix_genesis_file`);
* `export-blockchain-rpc.py` — the RPC chain walker / exporter
  (`make_rpc_call`, `get_current_height`, `export_blockchain`);
* `read-migrated-state.py` — the export analyzer (`analyze_export`).

Python `json` values are modelled by the inductive type `Json`; Python
strings are modelled as lists of Unicode scalar values (`Str`).  Python
dicts are modelled as association lists in insertion order, which is
exact for every dict produced by `json.loads` (duplicate keys collapse
with the last value winning, at the first key's position, mirroring
CPython).  JSON numbers are modelled as arbitrary-precision integers
(Python `int`); documents with fractional or exponent literals (Python
`float`) and the non-standard `NaN`/`Infinity` literals are outside the
model: the embedded parser rejects them.  Lone Unicode surrogates in
`\uXXXX` escapes (which CPython would keep as unpaired surrogate code
units) are likewise rejected, since Lean `Char` carries only scalar
values.  These restrictions are noted here once; everything else follows
the sources' behaviour, including raised exceptions, which are modelled
by `Option.none` / dedicated crash results.
-/

set_option maxHeartbeats 1000000

/-- A Python string: a sequence of Unicode scalar values. -/
abbrev Str := List Char

/-- A Python value as produced by `json.loads`: the model of the JSON
data the tools traverse. -/
inductive Json where
  | null : Json
  | bool (b : Bool) : Json
  | num (n : Int) : Json
  | str (s : Str) : Json
  | arr (elems : List Json) : Json
  | obj (members : List (Str × Json)) : Json

namespace Json

mutual
/-- Size of a document, counting one per node and one per string
character.  Used as the fuel bound for the normalizer's recursion. -/
def sizeJ : Json → Nat
  | .null => 1
  | .bool _ => 1
  | .num _ => 1
  | .str s => s.length + 1
  | .arr xs => 1 + sizeE xs
  | .obj kvs => 1 + sizeM kvs
def sizeM : List (Str × Json) → Nat
  | [] => 0
  | (_, v) :: rest => 1 + sizeJ v + sizeM rest
def sizeE : List Json → Nat
  | [] => 0
  | v :: rest => 1 + sizeJ v + sizeE rest
end

/-- Dictionary lookup (`d[k]` / `d.get(k)`), first occurrence. -/
def lookupKV : List (Str × Json) → Str → Option Json
  | [], _ => none
  | (k', v) :: rest, k => if k' = k then some v else lookupKV rest k

/-- Membership test for a dict key (`k in d`). -/
def hasKey (kvs : List (Str × Json)) (k : Str) : Bool :=
  (lookupKV kvs k).isSome

/-- Dictionary assignment `d[k] = v` for a key already present: the value
is replaced in place, the key keeps its original position. -/
def setKV : List (Str × Json) → Str → Json → List (Str × Json)
  | [], _, _ => []
  | (k', v') :: rest, k, v =>
    if k' = k then (k', v) :: rest else (k', v') :: setKV rest k v

/-- Dictionary insertion as performed by `dict(pairs)`: an existing key
keeps its position and receives the new value, a fresh key is appended. -/
def insertKV (kvs : List (Str × Json)) (k : Str) (v : Json) : List (Str × Json) :=
  if hasKey kvs k then setKV kvs k v else kvs ++ [(k, v)]

mutual
/-- Well-formedness: every object has pairwise distinct keys.  Every
value produced by `json.loads` (a Python dict) satisfies this. -/
def wfV : Json → Bool
  | .null => true
  | .bool _ => true
  | .num _ => true
  | .str _ => true
  | .arr xs => wfE xs
  | .obj kvs => wfM kvs
def wfM : List (Str × Json) → Bool
  | [] => true
  | (k, v) :: rest => !hasKey rest k && wfV v && wfM rest
def wfE : List Json → Bool
  | [] => true
  | v :: rest => wfV v && wfE rest
end

end Json

/-! ## Serialization: `json.dumps` with `separators=(',', ':')`

This models CPython's compact encoder with its default `ensure_ascii=True`:
every character outside the printable ASCII range `0x20`–`0x7e` is written
as a `\uXXXX` escape (a surrogate pair for astral characters), and the
characters with dedicated short escapes use those. -/

/-- Lowercase hexadecimal digit, as produced by `'\u%04x'` formatting. -/
def hexDigitCh (n : Nat) : Char :=
  if n < 10 then Char.ofNat (48 + n) else Char.ofNat (87 + n)

/-- The four hex digits of a code unit below `0x10000`. -/
def hex4 (n : Nat) : Str :=
  [hexDigitCh (n / 4096 % 16), hexDigitCh (n / 256 % 16),
   hexDigitCh (n / 16 % 16), hexDigitCh (n % 16)]

/-- One `\uXXXX` escape block. -/
def uEsc (n : Nat) : Str := '\\' :: 'u' :: hex4 n

/-- Encoding of a single character inside a JSON string literal. -/
def escapeChar (c : Char) : Str :=
  if c = '"' then ['\\', '"']
  else if c = '\\' then ['\\', '\\']
  else if c = '\n' then ['\\', 'n']
  else if c = '\r' then ['\\', 'r']
  else if c = '\t' then ['\\', 't']
  else if c.toNat = 8 then ['\\', 'b']
  else if c.toNat = 12 then ['\\', 'f']
  else if c.toNat < 32 || 126 < c.toNat then
    if c.toNat < 65536 then uEsc c.toNat
    else uEsc (0xd800 + (c.toNat - 0x10000) / 0x400) ++
         uEsc (0xdc00 + (c.toNat - 0x10000) % 0x400)
  else [c]

/-- Body of a JSON string literal. -/
def escBody : Str → Str
  | [] => []
  | c :: rest => escapeChar c ++ escBody rest

/-- A quoted JSON string literal. -/
def dumpStr (s : Str) : Str := '"' :: escBody s ++ ['"']

/-- Decimal digits of a natural number, most significant first; the fuel
argument only bounds the recursion (`n` itself always suffices). -/
def natDigits : Nat → Nat → Str
  | 0, _ => []
  | fuel + 1, n => if n = 0 then [] else natDigits fuel (n / 10) ++ [hexDigitCh (n % 10)]

/-- Decimal rendering of a natural number (`str(n)` for `n >= 0`). -/
def natDump (n : Nat) : Str := if n = 0 then ['0'] else natDigits n n

/-- Decimal rendering of a Python integer (`str(n)`). -/
def intDump (i : Int) : Str := if i < 0 then '-' :: natDump i.natAbs else natDump i.natAbs

namespace Json

mutual
/-- `json.dumps(x, separators=(',', ':'))`: the compact, deterministic,
whitespace-free encoding used to re-serialize embedded sub-documents. -/
def dumpVal : Json → Str
  | .num i => intDump i
  | .str s => dumpStr s
  | .arr xs => '[' :: dumpElems xs ++ [']']
  | .obj kvs => '{' :: dumpMembers kvs ++ ['}']
  | .bool false => ['f', 'a', 'l', 's', 'e']
  | .bool true => ['t', 'r', 'u', 'e']
  | .null => ['n', 'u', 'l', 'l']
def dumpMembers : List (Str × Json) → Str
  | [] => []
  | [(k, v)] => dumpStr k ++ ':' :: dumpVal v
  | (k, v) :: rest => dumpStr k ++ ':' :: dumpVal v ++ ',' :: dumpMembers rest
def dumpElems : List Json → Str
  | [] => []
  | [x] => dumpVal x
  | x :: rest => dumpVal x ++ ',' :: dumpElems rest
end

end Json

/-! ## Parsing: `json.loads`

A fuel-indexed recursive-descent parser mirroring CPython's pure-Python
scanner (`json/scanner.py`, `json/decoder.py`) on the integer fragment of
JSON.  Fuel strictly decreases on every recursive call; `loads` passes
`length + 1` units, which is sufficient for every accepting run (each
unit of fuel is paid for by at least one consumed input character, with
every `[`/`{` paying for its element loop). -/

/-- The whitespace characters skipped by the decoder (` \t\n\r`). -/
def isWsCh (c : Char) : Bool := c = ' ' || c = '\t' || c = '\n' || c = '\r'

/-- Drop leading JSON whitespace. -/
def skipWs : Str → Str
  | [] => []
  | c :: rest => if isWsCh c then skipWs rest else c :: rest

/-- Value of one hexadecimal digit (both cases accepted on input). -/
def hexVal (c : Char) : Option Nat :=
  if '0' ≤ c ∧ c ≤ '9' then some (c.toNat - 48)
  else if 'a' ≤ c ∧ c ≤ 'f' then some (c.toNat - 87)
  else if 'A' ≤ c ∧ c ≤ 'F' then some (c.toNat - 55)
  else none

/-- Read exactly four hexadecimal digits. -/
def parseHex4 : Str → Option (Nat × Str)
  | a :: b :: c :: d :: rest =>
    match hexVal a, hexVal b, hexVal c, hexVal d with
    | some x, some y, some z, some w => some (((x * 16 + y) * 16 + z) * 16 + w, rest)
    | _, _, _, _ => none
  | _ => none

/-- The two-character backslash escapes of the decoder. -/
def unescape (c : Char) : Option Char :=
  if c = '"' then some '"'
  else if c = '\\' then some '\\'
  else if c = '/' then some '/'
  else if c = 'b' then some (Char.ofNat 8)
  else if c = 'f' then some (Char.ofNat 12)
  else if c = 'n' then some '\n'
  else if c = 'r' then some '\r'
  else if c = 't' then some '\t'
  else none

/-- Scan a string literal body after the opening quote (`py_scanstring`
with `strict=True`): raw control characters are rejected, `\uXXXX`
escapes are decoded with surrogate-pair combination. -/
def parseStrBody : Nat → Str → Option (Str × Str)
  | 0, _ => none
  | fuel + 1, cs =>
    match cs with
    | [] => none
    | c :: rest =>
      if c = '"' then some ([], rest)
      else if c = '\\' then
        match rest with
        | [] => none
        | e :: rest2 =>
          if e = 'u' then
            match parseHex4 rest2 with
            | none => none
            | some (n, r1) =>
              if 0xd800 ≤ n ∧ n ≤ 0xdbff then
                match r1 with
                | '\\' :: 'u' :: r2 =>
                  match parseHex4 r2 with
                  | none => none
                  | some (m, r3) =>
                    if 0xdc00 ≤ m ∧ m ≤ 0xdfff then
                      match parseStrBody fuel r3 with
                      | some (s, r4) =>
                        some (Char.ofNat (0x10000 + (n - 0xd800) * 0x400 + (m - 0xdc00)) :: s, r4)
                      | none => none
                    else none
                | _ => none
              else if 0xdc00 ≤ n ∧ n ≤ 0xdfff then none
              else
                match parseStrBody fuel r1 with
                | some (s, r4) => some (Char.ofNat n :: s, r4)
                | none => none
          else
            match unescape e with
            | none => none
            | some c' =>
              match parseStrBody fuel rest2 with
              | some (s, r4) => some (c' :: s, r4)
              | none => none
      else if c.toNat < 32 then none
      else
        match parseStrBody fuel rest with
        | some (s, r4) => some (c :: s, r4)
        | none => none

/-- Fold a run of decimal digit characters onto an accumulator. -/
def digitsToNat : Str → Nat → Nat
  | [], acc => acc
  | c :: rest, acc => digitsToNat rest (acc * 10 + (c.toNat - 48))

/-- Scan the integer part of a JSON number (`0` or `[1-9][0-9]*`),
maximal munch, exactly as the scanner's `NUMBER_RE` integer group. -/
def parseNat : Str → Option (Nat × Str)
  | [] => none
  | c :: rest =>
    if c = '0' then some (0, rest)
    else if c.isDigit then
      some (digitsToNat (rest.takeWhile Char.isDigit) (c.toNat - 48),
            rest.dropWhile Char.isDigit)
    else none

/-- After the integer part, a `.`/`e`/`E` would start the float groups of
`NUMBER_RE`; floats are outside this model, so such inputs are rejected
(CPython would produce a `float` here). -/
def numTermOK : Str → Bool
  | [] => true
  | c :: _ => !(c = '.' || c = 'e' || c = 'E')

mutual
/-- Scan one JSON value (`scan_once`), skipping leading whitespace as the
call sites of the decoder do. -/
def parseValue : Nat → Str → Option (Json × Str)
  | 0, _ => none
  | fuel + 1, cs =>
    match skipWs cs with
    | [] => none
    | c :: rest =>
      if c = '{' then
        match skipWs rest with
        | '}' :: r1 => some (.obj [], r1)
        | r1 => parseMembers fuel r1 []
      else if c = '[' then
        match skipWs rest with
        | ']' :: r1 => some (.arr [], r1)
        | r1 => parseElements fuel r1 []
      else if c = '"' then
        match parseStrBody fuel rest with
        | some (s, r1) => some (.str s, r1)
        | none => none
      else if c = 't' then
        match rest with
        | 'r' :: 'u' :: 'e' :: r1 => some (.bool true, r1)
        | _ => none
      else if c = 'f' then
        match rest with
        | 'a' :: 'l' :: 's' :: 'e' :: r1 => some (.bool false, r1)
        | _ => none
      else if c = 'n' then
        match rest with
        | 'u' :: 'l' :: 'l' :: r1 => some (.null, r1)
        | _ => none
      else if c = '-' then
        match parseNat rest with
        | some (n, r1) => if numTermOK r1 then some (.num (-(n : Int)), r1) else none
        | none => none
      else if c.isDigit then
        match parseNat (c :: rest) with
        | some (n, r1) => if numTermOK r1 then some (.num (n : Int), r1) else none
        | none => none
      else none

/-- Scan the members of an object after its first `"` has been reached
(`JSONObject`); the accumulated pairs are committed through `insertKV`,
mirroring `dict(pairs)`. -/
def parseMembers : Nat → Str → List (Str × Json) → Option (Json × Str)
  | 0, _, _ => none
  | fuel + 1, cs, acc =>
    match cs with
    | '"' :: rest =>
      match parseStrBody fuel rest with
      | none => none
      | some (k, r1) =>
        match skipWs r1 with
        | ':' :: r2 =>
          match parseValue fuel r2 with
          | none => none
          | some (v, r3) =>
            match skipWs r3 with
            | ',' :: r4 => parseMembers fuel (skipWs r4) (Json.insertKV acc k v)
            | '}' :: r4 => some (.obj (Json.insertKV acc k v), r4)
            | _ => none
        | _ => none
    | _ => none

/-- Scan the elements of a non-empty array (`JSONArray`). -/
def parseElements : Nat → Str → List Json → Option (Json × Str)
  | 0, _, _ => none
  | fuel + 1, cs, acc =>
    match parseValue fuel cs with
    | none => none
    | some (v, r1) =>
      match skipWs r1 with
      | ',' :: r2 => parseElements fuel r2 (acc ++ [v])
      | ']' :: r2 => some (.arr (acc ++ [v]), r2)
      | _ => none
end

/-- `json.loads`: scan one value and require only whitespace after it. -/
def loads (cs : Str) : Option Json :=
  match parseValue (cs.length + 1) cs with
  | some (v, rest) => if skipWs rest = [] then some v else none
  | none => none

/-- `json.dumps(x, separators=(',', ':'))` as a whole-document operation. -/
def dumps (x : Json) : Str := Json.dumpVal x

/-! ## Helper lemmas: whitespace, digit runs, decimal rendering -/

theorem skipWs_cons {c : Char} (l : Str) (h : isWsCh c = false) :
    skipWs (c :: l) = c :: l := by
  simp [skipWs, h]

theorem skipWs_length : ∀ l : Str, (skipWs l).length ≤ l.length := by
  intro l
  induction l with
  | nil => simp [skipWs]
  | cons c rest ih =>
    by_cases h : isWsCh c = true
    · simp [skipWs, h]; omega
    · simp [skipWs, h]

theorem takeWhile_all_append {p : Char → Bool} :
    ∀ (l r : Str), (∀ c ∈ l, p c = true) → (∀ c ∈ r.head?, p c = false) →
      (l ++ r).takeWhile p = l ∧ (l ++ r).dropWhile p = r := by
  intro l r hl hr
  induction l with
  | nil =>
    cases r with
    | nil => simp
    | cons c t =>
      have := hr c (by simp)
      simp [List.takeWhile, List.dropWhile, this]
  | cons c t ih =>
    have hc := hl c (by simp)
    have ht := ih (fun d hd => hl d (by simp [hd]))
    simp [List.takeWhile, List.dropWhile, hc, ht.1, ht.2]

theorem natDigits_zero : ∀ f, natDigits f 0 = [] := by
  intro f; cases f <;> simp [natDigits]

theorem digitsToNat_append (l1 l2 : Str) :
    ∀ a, digitsToNat (l1 ++ l2) a = digitsToNat l2 (digitsToNat l1 a) := by
  induction l1 with
  | nil => intro a; rfl
  | cons c t ih => intro a; exact ih (a * 10 + (c.toNat - 48))

theorem digitsToNat_natDigits :
    ∀ f n a, n ≤ f →
      digitsToNat (natDigits f n) a = a * 10 ^ (natDigits f n).length + n := by
  intro f
  induction f with
  | zero =>
    intro n a hn
    have : n = 0 := by omega
    subst this
    simp [natDigits, digitsToNat]
  | succ f ih =>
    intro n a hn
    by_cases h0 : n = 0
    · subst h0; simp [natDigits, digitsToNat]
    · have hdiv : n / 10 ≤ f := by omega
      have hrec := ih (n / 10) a hdiv
      have hmod : (hexDigitCh (n % 10)).toNat - 48 = n % 10 := by
        have hlt : n % 10 < 10 := by omega
        revert hlt
        have hall : ∀ m, m < 10 → (hexDigitCh m).toNat - 48 = m := by decide
        exact hall (n % 10)
      simp only [natDigits, h0, if_false]
      rw [digitsToNat_append, hrec]
      have hsingle : ∀ x : Nat, digitsToNat [hexDigitCh (n % 10)] x = x * 10 + (n % 10) := by
        intro x
        show x * 10 + ((hexDigitCh (n % 10)).toNat - 48) = x * 10 + (n % 10)
        rw [hmod]
      rw [hsingle]
      rw [List.length_append, List.length_cons, List.length_nil, pow_succ]
      have hdm : n / 10 * 10 + n % 10 = n := by omega
      have hexp : (a * 10 ^ (natDigits f (n / 10)).length + n / 10) * 10 + n % 10 =
          a * (10 ^ (natDigits f (n / 10)).length * 10) + (n / 10 * 10 + n % 10) := by
        ring
      rw [hexp, hdm]

theorem natDigits_all_digit :
    ∀ f n c, c ∈ natDigits f n → c.isDigit = true := by
  intro f
  induction f with
  | zero => intro n c hc; simp [natDigits] at hc
  | succ f ih =>
    intro n c hc
    by_cases h0 : n = 0
    · subst h0; simp [natDigits] at hc
    · simp only [natDigits, h0, if_false, List.mem_append, List.mem_singleton] at hc
      rcases hc with hc | hc
      · exact ih _ _ hc
      · subst hc
        have : n % 10 < 10 := by omega
        revert this
        have : ∀ m, m < 10 → (hexDigitCh m).isDigit = true := by decide
        exact this (n % 10)

theorem natDigits_head :
    ∀ f n, n ≠ 0 → n ≤ f →
      ∃ c t, natDigits f n = c :: t ∧ c ≠ '0' ∧ c.isDigit = true := by
  intro f
  induction f with
  | zero => intro n h0 hn; omega
  | succ f ih =>
    intro n h0 hn
    by_cases hq : n / 10 = 0
    · have hlt : n < 10 := by omega
      refine ⟨hexDigitCh (n % 10), [], ?_, ?_, ?_⟩
      · simp [natDigits, h0, hq, natDigits_zero]
      · have : n % 10 = n := Nat.mod_eq_of_lt hlt
        rw [this]
        revert h0
        revert hlt
        have : ∀ m, m < 10 → m ≠ 0 → hexDigitCh m ≠ '0' := by decide
        exact this n
      · have : n % 10 < 10 := by omega
        revert this
        have : ∀ m, m < 10 → (hexDigitCh m).isDigit = true := by decide
        exact this (n % 10)
    · obtain ⟨c, t, heq, hne, hdig⟩ := ih (n / 10) hq (by omega)
      exact ⟨c, t ++ [hexDigitCh (n % 10)], by simp [natDigits, h0, heq], hne, hdig⟩

theorem parseNat_natDump (n : Nat) (rest : Str)
    (hrest : ∀ c ∈ rest.head?, c.isDigit = false) :
    parseNat (natDump n ++ rest) = some (n, rest) := by
  by_cases h0 : n = 0
  · subst h0; simp [natDump, parseNat]
  · obtain ⟨c, t, heq, hne, hdig⟩ := natDigits_head n n h0 (le_refl n)
    have htall : ∀ d ∈ t, d.isDigit = true := by
      intro d hd
      exact natDigits_all_digit n n d (by rw [heq]; simp [hd])
    obtain ⟨htake, hdrop⟩ := takeWhile_all_append t rest htall hrest
    have hval : digitsToNat t (c.toNat - 48) = n := by
      have := digitsToNat_natDigits n n 0 (le_refl n)
      rw [heq] at this
      simpa [digitsToNat] using this
    simp [natDump, h0, heq, parseNat, hne, hdig, htake, hdrop, hval]

/-! ## String literal roundtrip -/

theorem char_toNat_valid (c : Char) :
    c.toNat < 0xd800 ∨ (0xdfff < c.toNat ∧ c.toNat < 0x110000) := c.valid

theorem hexVal_hexDigitCh : ∀ m, m < 16 → hexVal (hexDigitCh m) = some m := by decide

theorem parseHex4_hex4 (n : Nat) (rest : Str) (h : n < 65536) :
    parseHex4 (hex4 n ++ rest) = some (n, rest) := by
  have h1 := hexVal_hexDigitCh (n / 4096 % 16) (by omega)
  have h2 := hexVal_hexDigitCh (n / 256 % 16) (by omega)
  have h3 := hexVal_hexDigitCh (n / 16 % 16) (by omega)
  have h4 := hexVal_hexDigitCh (n % 16) (by omega)
  have hval : ((n / 4096 % 16 * 16 + n / 256 % 16) * 16 + n / 16 % 16) * 16 + n % 16 = n := by
    omega
  simp [hex4, parseHex4, h1, h2, h3, h4, hval]

theorem parseStrBody_escBody :
    ∀ (s : Str) (fuel : Nat) (rest : Str), s.length < fuel →
      parseStrBody fuel (escBody s ++ '"' :: rest) = some (s, rest) := by
  intro s
  induction s with
  | nil =>
    intro fuel rest h
    obtain ⟨f, rfl⟩ : ∃ f, fuel = f + 1 := ⟨fuel - 1, by omega⟩
    simp [escBody, parseStrBody]
  | cons c t ih =>
    intro fuel rest h
    obtain ⟨f, rfl⟩ : ∃ f, fuel = f + 1 := ⟨fuel - 1, by omega⟩
    have ht : t.length < f := by
      simp only [List.length_cons] at h
      omega
    have ihf := ih f rest ht
    rw [escBody, List.append_assoc]
    by_cases h1 : c = '"'
    · subst h1; simp [escapeChar, parseStrBody, unescape, ihf]
    by_cases h2 : c = '\\'
    · subst h2; simp [escapeChar, parseStrBody, unescape, ihf]
    by_cases h3 : c = '\n'
    · subst h3; simp [escapeChar, parseStrBody, unescape, ihf]
    by_cases h4 : c = '\r'
    · subst h4; simp [escapeChar, parseStrBody, unescape, ihf]
    by_cases h5 : c = '\t'
    · subst h5; simp [escapeChar, parseStrBody, unescape, ihf]
    by_cases h6 : c.toNat = 8
    · have hc : c = Char.ofNat 8 := by rw [← h6, Char.ofNat_toNat]
      subst hc
      simp [escapeChar, parseStrBody, unescape, ihf]
    by_cases h7 : c.toNat = 12
    · have hc : c = Char.ofNat 12 := by rw [← h7, Char.ofNat_toNat]
      subst hc
      simp [escapeChar, parseStrBody, unescape, ihf]
    by_cases h8 : c.toNat < 32 || 126 < c.toNat
    · by_cases h9 : c.toNat < 65536
      · have hnosur1 : ¬(0xd800 ≤ c.toNat ∧ c.toNat ≤ 0xdbff) := by
          rcases char_toNat_valid c with hv | hv <;> omega
        have hnosur2 : ¬(0xdc00 ≤ c.toNat ∧ c.toNat ≤ 0xdfff) := by
          rcases char_toNat_valid c with hv | hv <;> omega
        rw [escapeChar, if_neg h1, if_neg h2, if_neg h3, if_neg h4, if_neg h5,
          if_neg h6, if_neg h7, if_pos h8, if_pos h9]
        rw [uEsc, List.cons_append, List.cons_append]
        rw [parseStrBody]
        simp only [reduceIte, List.cons.injEq]
        rw [parseHex4_hex4 _ _ h9]
        simp [hnosur1, hnosur2, ihf, Char.ofNat_toNat]
      · have hup : c.toNat < 0x110000 := by
          rcases char_toNat_valid c with hv | hv <;> omega
        have hge : 65536 ≤ c.toNat := by omega
        have hhi : 0xd800 ≤ 0xd800 + (c.toNat - 0x10000) / 0x400 ∧
            0xd800 + (c.toNat - 0x10000) / 0x400 ≤ 0xdbff := by omega
        have hlo : 0xdc00 ≤ 0xdc00 + (c.toNat - 0x10000) % 0x400 ∧
            0xdc00 + (c.toNat - 0x10000) % 0x400 ≤ 0xdfff := by omega
        have hhilt : 0xd800 + (c.toNat - 0x10000) / 0x400 < 65536 := by omega
        have hlolt : 0xdc00 + (c.toNat - 0x10000) % 0x400 < 65536 := by omega
        have hrecon : 0x10000 + (0xd800 + (c.toNat - 0x10000) / 0x400 - 0xd800) * 0x400 +
            (0xdc00 + (c.toNat - 0x10000) % 0x400 - 0xdc00) = c.toNat := by omega
        rw [escapeChar, if_neg h1, if_neg h2, if_neg h3, if_neg h4, if_neg h5,
          if_neg h6, if_neg h7, if_pos h8, if_neg (by omega : ¬c.toNat < 65536)]
        rw [uEsc, uEsc]
        simp only [List.cons_append, List.append_assoc]
        rw [parseStrBody]
        simp [parseHex4_hex4 _ _ hhilt, parseHex4_hex4 _ _ hlolt, if_pos hhi, if_pos hlo,
          ihf, hrecon, Char.ofNat_toNat]
        rw [if_pos hhi.2, if_pos hlo.2]
        have harg : 65536 + (c.toNat - 65536) / 1024 * 1024 + (c.toNat - 65536) % 1024 =
            c.toNat := by omega
        rw [harg, Char.ofNat_toNat]
    · have hge32 : 32 ≤ c.toNat ∧ c.toNat ≤ 126 := by
        simp only [Bool.or_eq_true, decide_eq_true_eq, not_or] at h8
        omega
      rw [escapeChar, if_neg h1, if_neg h2, if_neg h3, if_neg h4, if_neg h5,
        if_neg h6, if_neg h7, if_neg h8]
      rw [List.singleton_append]
      simp [parseStrBody, h1, h2, (by omega : ¬c.toNat < 32), ihf]
      omega

/-! ## Fuel accounting and head-character facts for the roundtrip -/

namespace Json

mutual
/-- Parser fuel sufficient for re-reading a dumped value. -/
def fuelV : Json → Nat
  | .null => 1
  | .bool _ => 1
  | .num _ => 1
  | .str s => s.length + 2
  | .arr xs => 1 + fuelE xs
  | .obj kvs => 1 + fuelM kvs
def fuelM : List (Str × Json) → Nat
  | [] => 1
  | (k, v) :: rest => 1 + max (k.length + 1) (max (fuelV v) (fuelM rest))
def fuelE : List Json → Nat
  | [] => 1
  | v :: rest => 1 + max (fuelV v) (fuelE rest)
end

theorem fuelV_pos (x : Json) : 1 ≤ fuelV x := by
  cases x <;> simp [fuelV]

theorem fuelM_pos (kvs : List (Str × Json)) : 1 ≤ fuelM kvs := by
  cases kvs with
  | nil => simp [fuelM]
  | cons kv rest => cases kv; simp [fuelM]

theorem fuelE_pos (xs : List Json) : 1 ≤ fuelE xs := by
  cases xs <;> simp [fuelE]

theorem hasKey_append (l1 l2 : List (Str × Json)) (k : Str) :
    hasKey (l1 ++ l2) k = (hasKey l1 k || hasKey l2 k) := by
  induction l1 with
  | nil => simp [hasKey, lookupKV]
  | cons p rest ih =>
    obtain ⟨k', v⟩ := p
    by_cases h : k' = k
    · simp [hasKey, lookupKV, h]
    · simp only [List.cons_append]
      simp [hasKey, lookupKV, h] at ih ⊢
      exact ih

theorem hasKey_false_ne {l : List (Str × Json)} {k : Str} (h : hasKey l k = false) :
    ∀ p ∈ l, p.1 ≠ k := by
  induction l with
  | nil => intro p hp; simp at hp
  | cons q rest ih =>
    obtain ⟨k', v⟩ := q
    by_cases hk : k' = k
    · simp [hasKey, lookupKV, hk] at h
    · intro p hp
      rcases List.mem_cons.mp hp with rfl | hp'
      · exact hk
      · exact ih (by simpa [hasKey, lookupKV, hk] using h) p hp'

theorem ne_hasKey_false {l : List (Str × Json)} {k : Str} (h : ∀ p ∈ l, p.1 ≠ k) :
    hasKey l k = false := by
  induction l with
  | nil => simp [hasKey, lookupKV]
  | cons q rest ih =>
    obtain ⟨k', v⟩ := q
    have hk : k' ≠ k := h (k', v) (by simp)
    simp [hasKey, lookupKV, hk]
    have := ih (fun p hp => h p (by simp [hp]))
    simpa [hasKey] using this

theorem insertKV_fresh (acc : List (Str × Json)) (k : Str) (v : Json)
    (h : hasKey acc k = false) : insertKV acc k v = acc ++ [(k, v)] := by
  simp [insertKV, h]

end Json

/-- The head character of a number/value dump never collides with the
parser's terminator characters and is never whitespace. -/
theorem isDigit_facts (c : Char) (h : c.isDigit = true) :
    isWsCh c = false ∧ c ≠ '{' ∧ c ≠ '[' ∧ c ≠ '"' ∧ c ≠ 't' ∧ c ≠ 'f' ∧
      c ≠ 'n' ∧ c ≠ '-' ∧ c ≠ ']' ∧ c ≠ '}' ∧ c ≠ ',' ∧ c ≠ ':' := by
  have hws : isWsCh c = false := by
    by_cases e1 : c = ' '
    · rw [e1] at h; exact absurd h (by decide)
    by_cases e2 : c = '\t'
    · rw [e2] at h; exact absurd h (by decide)
    by_cases e3 : c = '\n'
    · rw [e3] at h; exact absurd h (by decide)
    by_cases e4 : c = '\r'
    · rw [e4] at h; exact absurd h (by decide)
    simp [isWsCh, e1, e2, e3, e4]
  refine ⟨hws, ?_, ?_, ?_, ?_, ?_, ?_, ?_, ?_, ?_, ?_, ?_⟩ <;>
    first
      | (intro hEq; rw [hEq] at h; exact absurd h (by decide))

theorem natDump_head (n : Nat) :
    ∃ c t, natDump n = c :: t ∧ c.isDigit = true := by
  by_cases h0 : n = 0
  · exact ⟨'0', [], by simp [natDump, h0], by decide⟩
  · obtain ⟨c, t, heq, _, hdig⟩ := natDigits_head n n h0 (le_refl n)
    exact ⟨c, t, by simp [natDump, h0, heq], hdig⟩

/-- Every dumped value starts with a character that is not whitespace and
not one of the closing punctuation characters. -/
theorem dumpVal_head (x : Json) :
    ∃ c t, Json.dumpVal x = c :: t ∧ isWsCh c = false ∧ c ≠ ']' ∧ c ≠ '}' ∧ c ≠ ',' := by
  cases x with
  | null => exact ⟨'n', _, rfl, by decide, by decide, by decide, by decide⟩
  | bool b =>
    cases b with
    | true => exact ⟨'t', _, rfl, by decide, by decide, by decide, by decide⟩
    | false => exact ⟨'f', _, rfl, by decide, by decide, by decide, by decide⟩
  | num i =>
    by_cases hneg : i < 0
    · exact ⟨'-', natDump i.natAbs, by simp [Json.dumpVal, intDump, hneg], by decide,
        by decide, by decide, by decide⟩
    · obtain ⟨c, t, heq, hdig⟩ := natDump_head i.natAbs
      obtain ⟨hws, _, _, _, _, _, _, _, hne1, hne2, hne3, _⟩ := isDigit_facts c hdig
      exact ⟨c, t, by simp [Json.dumpVal, intDump, hneg, heq], hws, hne1, hne2, hne3⟩
  | str s => exact ⟨'"', _, rfl, by decide, by decide, by decide, by decide⟩
  | arr xs => exact ⟨'[', _, rfl, by decide, by decide, by decide, by decide⟩
  | obj kvs => exact ⟨'{', _, rfl, by decide, by decide, by decide, by decide⟩

/-- Heads of non-empty member/element dumps. -/
theorem dumpMembers_head (k : Str) (v : Json) (rest : List (Str × Json)) :
    ∃ t, Json.dumpMembers ((k, v) :: rest) = '"' :: t := by
  cases rest with
  | nil => exact ⟨_, rfl⟩
  | cons p r => exact ⟨_, rfl⟩

/-- A continuation after a dumped number: its head is neither a digit nor
one of the float-introducing characters. -/
def numSafe : Str → Bool
  | [] => true
  | c :: _ => !(c.isDigit || c = '.' || c = 'e' || c = 'E')

theorem numSafe_head_digit {rest : Str} (h : numSafe rest = true) :
    ∀ c ∈ rest.head?, c.isDigit = false := by
  cases rest with
  | nil => intro c hc; simp at hc
  | cons c t =>
    intro d hd
    simp at hd
    subst hd
    simp [numSafe] at h
    obtain ⟨⟨⟨hd1, _⟩, _⟩, _⟩ := h
    exact hd1

theorem numSafe_numTermOK {rest : Str} (h : numSafe rest = true) : numTermOK rest = true := by
  cases rest with
  | nil => rfl
  | cons c t =>
    simp [numSafe] at h
    obtain ⟨⟨⟨_, h1⟩, h2⟩, h3⟩ := h
    simp [numTermOK, h1, h2, h3]

/-! ## The dump/parse roundtrip -/

theorem parse_dump_rt : ∀ fuel : Nat,
    (∀ x rest, Json.fuelV x ≤ fuel → Json.wfV x = true → numSafe rest = true →
      parseValue fuel (Json.dumpVal x ++ rest) = some (x, rest)) ∧
    (∀ kvs acc rest, kvs ≠ [] → Json.fuelM kvs ≤ fuel → Json.wfM kvs = true →
      (∀ p ∈ kvs, Json.hasKey acc p.1 = false) →
      parseMembers fuel (Json.dumpMembers kvs ++ '}' :: rest) acc =
        some (.obj (acc ++ kvs), rest)) ∧
    (∀ xs acc rest, xs ≠ [] → Json.fuelE xs ≤ fuel → Json.wfE xs = true →
      parseElements fuel (Json.dumpElems xs ++ ']' :: rest) acc =
        some (.arr (acc ++ xs), rest)) := by
  intro fuel
  induction fuel with
  | zero =>
    refine ⟨?_, ?_, ?_⟩
    · intro x rest hf _ _
      have := Json.fuelV_pos x; omega
    · intro kvs acc rest _ hf _ _
      have := Json.fuelM_pos kvs; omega
    · intro xs acc rest _ hf _
      have := Json.fuelE_pos xs; omega
  | succ fuel ih =>
    obtain ⟨ihV, ihM, ihE⟩ := ih
    refine ⟨?_, ?_, ?_⟩
    · -- values
      intro x rest hf hwf hns
      cases x with
      | null => simp [Json.dumpVal, parseValue, skipWs, isWsCh]
      | bool b => cases b <;> simp [Json.dumpVal, parseValue, skipWs, isWsCh]
      | num i =>
        have hnd := parseNat_natDump i.natAbs rest (numSafe_head_digit hns)
        have hterm := numSafe_numTermOK hns
        by_cases hneg : i < 0
        · simp only [Json.dumpVal, intDump, if_pos hneg, List.cons_append]
          rw [parseValue, skipWs_cons _ (by decide)]
          simp [hnd, hterm, abs_of_neg hneg]
        · by_cases h0 : i.natAbs = 0
          · have hi : i = 0 := by omega
            subst hi
            have hd : Json.dumpVal (Json.num 0) = ['0'] := rfl
            rw [hd, List.singleton_append, parseValue, skipWs_cons _ (by decide)]
            simp [parseNat, hterm]
          · obtain ⟨c, t, heq, hdig⟩ := natDump_head i.natAbs
            obtain ⟨hws, hn1, hn2, hn3, hn4, hn5, hn6, hn7, _, _, _, _⟩ :=
              isDigit_facts c hdig
            simp only [Json.dumpVal, intDump, if_neg hneg, heq, List.cons_append]
            rw [parseValue, skipWs_cons _ hws]
            simp only [if_neg hn1, if_neg hn2, if_neg hn3, if_neg hn4, if_neg hn5,
              if_neg hn6, if_neg hn7, if_pos hdig]
            rw [← List.cons_append, ← heq, hnd]
            simp [hterm]
            omega
      | str s =>
        have hlen : s.length < fuel := by
          simp [Json.fuelV] at hf; omega
        have hsb := parseStrBody_escBody s fuel rest hlen
        simp only [Json.dumpVal, dumpStr, List.cons_append, List.append_assoc,
          List.nil_append]
        rw [parseValue, skipWs_cons _ (by decide)]
        simp [hsb]
      | arr xs =>
        cases xs with
        | nil => simp [Json.dumpVal, Json.dumpElems, parseValue, skipWs, isWsCh]
        | cons x xs' =>
          have hfe : Json.fuelE (x :: xs') ≤ fuel := by
            simp [Json.fuelV] at hf; omega
          have hwfe : Json.wfE (x :: xs') = true := by
            simpa [Json.wfV] using hwf
          obtain ⟨c, t, hdv, hws, hne1, hne2, hne3⟩ := dumpVal_head x
          have hT : ∃ T, Json.dumpElems (x :: xs') = c :: T := by
            cases xs' with
            | nil => exact ⟨t, by simp [Json.dumpElems, hdv]⟩
            | cons y r => exact ⟨t ++ ',' :: Json.dumpElems (y :: r),
                by simp [Json.dumpElems, hdv]⟩
          obtain ⟨T, hT⟩ := hT
          have hres := ihE (x :: xs') [] rest (by simp) hfe hwfe
          rw [hT] at hres
          simp only [Json.dumpVal, hT, List.cons_append, List.append_assoc]
          rw [parseValue, skipWs_cons _ (by decide)]
          simp only [Char.reduceEq, reduceIte]
          rw [skipWs_cons _ hws]
          split
          · rename_i r1 heqm
            exfalso
            apply hne1
            have hh := congrArg List.head? heqm
            simp at hh
            exact hh
          · simpa using hres
      | obj kvs =>
        cases kvs with
        | nil => simp [Json.dumpVal, Json.dumpMembers, parseValue, skipWs, isWsCh]
        | cons kv kvs' =>
          obtain ⟨k, v⟩ := kv
          have hfm : Json.fuelM ((k, v) :: kvs') ≤ fuel := by
            simp [Json.fuelV] at hf; omega
          have hwfm : Json.wfM ((k, v) :: kvs') = true := by
            simpa [Json.wfV] using hwf
          obtain ⟨t, hT⟩ := dumpMembers_head k v kvs'
          have hres := ihM ((k, v) :: kvs') [] rest (by simp) hfm hwfm
            (by intro p _; simp [Json.hasKey, Json.lookupKV])
          rw [hT] at hres
          simp only [Json.dumpVal, hT, List.cons_append, List.append_assoc]
          rw [parseValue, skipWs_cons _ (by decide)]
          simp only [Char.reduceEq, reduceIte]
          rw [skipWs_cons _ (by decide)]
          simpa using hres
    · -- members
      intro kvs acc rest hne hf hwf hfresh
      cases kvs with
      | nil => exact absurd rfl hne
      | cons kv kvs' =>
        obtain ⟨k, v⟩ := kv
        simp only [Json.fuelM, Nat.max_le] at hf
        obtain ⟨hfk, hfv, hfm'⟩ : k.length + 1 ≤ fuel ∧ Json.fuelV v ≤ fuel ∧
            Json.fuelM kvs' ≤ fuel := by omega
        have hkey : Json.hasKey kvs' k = false ∧ Json.wfV v = true ∧
            Json.wfM kvs' = true := by
          simp [Json.wfM] at hwf
          exact ⟨hwf.1.1, hwf.1.2, hwf.2⟩
        obtain ⟨hkk, hwv, hwm'⟩ := hkey
        have hlenk : k.length < fuel := by omega
        have hsb := fun r => parseStrBody_escBody k fuel r hlenk
        have hacck : Json.hasKey acc k = false := hfresh (k, v) (by simp)
        cases kvs' with
        | nil =>
          have hv := ihV v ('}' :: rest) hfv hwv (by simp [numSafe])
          simp only [Json.dumpMembers, dumpStr, List.cons_append, List.append_assoc,
            List.nil_append]
          rw [parseMembers]
          rw [hsb (':' :: (Json.dumpVal v ++ '}' :: rest))]
          simp [hv, skipWs, isWsCh, Json.insertKV_fresh acc k v hacck]
        | cons p kvs'' =>
          obtain ⟨k2, v2⟩ := p
          obtain ⟨t2, hT2⟩ := dumpMembers_head k2 v2 kvs''
          have hv := ihV v (',' :: (Json.dumpMembers ((k2, v2) :: kvs'') ++ '}' :: rest))
            hfv hwv (by simp [numSafe])
          have hfreshf : ∀ q ∈ (k2, v2) :: kvs'',
              Json.hasKey (acc ++ [(k, v)]) q.1 = false := by
            intro q hq
            rw [Json.hasKey_append]
            have h1 : Json.hasKey acc q.1 = false := hfresh q (by simp [hq])
            have h2 : q.1 ≠ k := Json.hasKey_false_ne hkk q hq
            have h3 : Json.hasKey [(k, v)] q.1 = false := by
              simp [Json.hasKey, Json.lookupKV]
              intro hEq
              exact absurd hEq.symm h2
            simp [h1, h3]
          have hres := ihM ((k2, v2) :: kvs'') (acc ++ [(k, v)]) rest (by simp)
            hfm' hwm' hfreshf
          rw [hT2] at hres
          rw [hT2] at hv
          simp only [Json.dumpMembers, dumpStr, List.cons_append, List.append_assoc,
            List.nil_append, hT2]
          rw [parseMembers]
          rw [hsb (':' :: (Json.dumpVal v ++ ',' :: ('"' :: (t2 ++ '}' :: rest))))]
          simp only [List.cons_append, List.append_assoc] at hv hres ⊢
          simp [skipWs, isWsCh, hv, Json.insertKV_fresh acc k v hacck, hres]
    · -- elements
      intro xs acc rest hne hf hwf
      cases xs with
      | nil => exact absurd rfl hne
      | cons x xs' =>
        simp only [Json.fuelE, Nat.max_le] at hf
        obtain ⟨hfv, hfe'⟩ : Json.fuelV x ≤ fuel ∧ Json.fuelE xs' ≤ fuel := by omega
        have hw : Json.wfV x = true ∧ Json.wfE xs' = true := by
          simp [Json.wfE] at hwf
          exact hwf
        obtain ⟨hwv, hwe'⟩ := hw
        cases xs' with
        | nil =>
          have hv := ihV x (']' :: rest) hfv hwv (by simp [numSafe])
          simp only [Json.dumpElems, List.append_assoc]
          rw [parseElements, hv]
          simp [skipWs, isWsCh]
        | cons y xs'' =>
          have hv := ihV x (',' :: (Json.dumpElems (y :: xs'') ++ ']' :: rest))
            hfv hwv (by simp [numSafe])
          have hres := ihE (y :: xs'') (acc ++ [x]) rest (by simp) hfe' hwe'
          simp only [Json.dumpElems, List.cons_append, List.append_assoc]
          rw [parseElements, hv]
          simp only [skipWs, isWsCh, reduceIte]
          simpa using hres

theorem escapeChar_len_pos (c : Char) : 1 ≤ (escapeChar c).length := by
  rw [escapeChar]
  repeat' split
  all_goals simp [uEsc, hex4]

theorem escBody_len (s : Str) : s.length ≤ (escBody s).length := by
  induction s with
  | nil => simp [escBody]
  | cons c t ih =>
    have := escapeChar_len_pos c
    simp [escBody]
    omega

theorem sizeJ_pos (x : Json) : 1 ≤ Json.sizeJ x := by
  cases x <;> simp [Json.sizeJ]

theorem dumpVal_len_pos (x : Json) : 1 ≤ (Json.dumpVal x).length := by
  obtain ⟨c, t, heq, -, -, -, -⟩ := dumpVal_head x
  simp [heq]

theorem fuel_le_len_aux : ∀ n : Nat,
    (∀ x, Json.sizeJ x ≤ n → Json.fuelV x ≤ (Json.dumpVal x).length) ∧
    (∀ kvs, Json.sizeM kvs ≤ n → Json.fuelM kvs ≤ (Json.dumpMembers kvs).length + 1) ∧
    (∀ xs, Json.sizeE xs ≤ n → Json.fuelE xs ≤ (Json.dumpElems xs).length + 1) := by
  intro n
  induction n with
  | zero =>
    refine ⟨?_, ?_, ?_⟩
    · intro x hx
      have := sizeJ_pos x
      omega
    · intro kvs hk
      cases kvs with
      | nil => simp [Json.fuelM, Json.dumpMembers]
      | cons kv rest =>
        obtain ⟨k, v⟩ := kv
        simp only [Json.sizeM] at hk
        omega
    · intro xs hx
      cases xs with
      | nil => simp [Json.fuelE, Json.dumpElems]
      | cons x rest =>
        simp only [Json.sizeE] at hx
        omega
  | succ n ih =>
    obtain ⟨ihV, ihM, ihE⟩ := ih
    refine ⟨?_, ?_, ?_⟩
    · intro x hx
      cases x with
      | null => simp [Json.fuelV, Json.dumpVal]
      | bool b => cases b <;> simp [Json.fuelV, Json.dumpVal]
      | num i =>
        have := dumpVal_len_pos (Json.num i)
        simp [Json.fuelV]
        omega
      | str s =>
        have := escBody_len s
        simp [Json.fuelV, Json.dumpVal, dumpStr]
        omega
      | arr xs =>
        have hs : Json.sizeE xs ≤ n := by simp [Json.sizeJ] at hx; omega
        have := ihE xs hs
        simp [Json.fuelV, Json.dumpVal]
        omega
      | obj kvs =>
        have hs : Json.sizeM kvs ≤ n := by simp [Json.sizeJ] at hx; omega
        have := ihM kvs hs
        simp [Json.fuelV, Json.dumpVal]
        omega
    · intro kvs hk
      cases kvs with
      | nil => simp [Json.fuelM, Json.dumpMembers]
      | cons kv rest =>
        obtain ⟨k, v⟩ := kv
        simp only [Json.sizeM] at hk
        have hv := ihV v (by omega)
        have hkl := escBody_len k
        have hvp := dumpVal_len_pos v
        cases rest with
        | nil =>
          simp [Json.fuelM, Json.dumpMembers, dumpStr, Nat.max_le]
          omega
        | cons p rest2 =>
          have hr := ihM (p :: rest2) (by omega)
          simp only [Json.dumpMembers] at hr ⊢
          simp [Json.fuelM, dumpStr, Nat.max_le] at hr ⊢
          omega
    · intro xs hx
      cases xs with
      | nil => simp [Json.fuelE, Json.dumpElems]
      | cons x rest =>
        simp only [Json.sizeE] at hx
        have hv := ihV x (by omega)
        have hvp := dumpVal_len_pos x
        cases rest with
        | nil =>
          simp [Json.fuelE, Json.dumpElems, Nat.max_le]
          omega
        | cons y rest2 =>
          have hr := ihE (y :: rest2) (by omega)
          simp only [Json.dumpElems] at hr ⊢
          simp [Json.fuelE, Nat.max_le] at hr ⊢
          omega

/-- Re-reading a compact dump of a well-formed document recovers exactly
that document: `json.loads(json.dumps(x, separators=(',', ':'))) == x`. -/
theorem loads_dumps (x : Json) (hwf : Json.wfV x = true) : loads (dumps x) = some x := by
  have hfuel : Json.fuelV x ≤ (Json.dumpVal x).length + 1 := by
    have := (fuel_le_len_aux (Json.sizeJ x)).1 x (le_refl _)
    omega
  have hrt := (parse_dump_rt ((Json.dumpVal x).length + 1)).1 x [] hfuel hwf (by rfl)
  rw [List.append_nil] at hrt
  simp [loads, dumps, hrt, skipWs]

/-! ## The parser produces well-formed documents -/

namespace Json

theorem setKV_hasKey (l : List (Str × Json)) (k : Str) (v : Json) (k' : Str) :
    hasKey (setKV l k v) k' = hasKey l k' := by
  induction l with
  | nil => simp [setKV]
  | cons p rest ih =>
    obtain ⟨k0, v0⟩ := p
    by_cases h : k0 = k
    · subst h
      by_cases h2 : k0 = k' <;> simp [setKV, hasKey, lookupKV, h2]
    · simp only [setKV, if_neg h]
      by_cases h2 : k0 = k' <;> simp [hasKey, lookupKV, h2] at ih ⊢
      exact ih

theorem setKV_wf (l : List (Str × Json)) (k : Str) (v : Json)
    (hl : wfM l = true) (hv : wfV v = true) : wfM (setKV l k v) = true := by
  induction l with
  | nil => simpa [setKV] using hl
  | cons p rest ih =>
    obtain ⟨k0, v0⟩ := p
    simp only [wfM, Bool.and_eq_true, Bool.not_eq_true'] at hl
    obtain ⟨⟨hk0, hv0⟩, hrest⟩ := hl
    by_cases h : k0 = k
    · subst h
      simp [setKV, wfM, Bool.and_eq_true, Bool.not_eq_true']
      exact ⟨⟨hk0, hv⟩, hrest⟩
    · simp only [setKV, if_neg h]
      simp only [wfM, Bool.and_eq_true, Bool.not_eq_true']
      exact ⟨⟨by rw [setKV_hasKey]; exact hk0, hv0⟩, ih hrest⟩

theorem wfM_append_fresh : ∀ (l : List (Str × Json)) (k : Str) (v : Json),
    wfM l = true → wfV v = true → hasKey l k = false →
    wfM (l ++ [(k, v)]) = true := by
  intro l
  induction l with
  | nil =>
    intro k v _ hv _
    simp [wfM, hasKey, lookupKV, hv]
  | cons p rest ih =>
    intro k v hl hv hk
    obtain ⟨k0, v0⟩ := p
    simp only [wfM, Bool.and_eq_true, Bool.not_eq_true'] at hl
    obtain ⟨⟨hk0, hv0⟩, hrest⟩ := hl
    have hk0k : k0 ≠ k := by
      intro hEq
      rw [hEq] at hk
      simp [hasKey, lookupKV] at hk
    have hkrest : hasKey rest k = false := by
      simp only [hasKey, lookupKV, if_neg hk0k] at hk
      simpa [hasKey] using hk
    simp only [List.cons_append, wfM, Bool.and_eq_true, Bool.not_eq_true']
    refine ⟨⟨?_, hv0⟩, ih k v hrest hv hkrest⟩
    show hasKey (rest ++ [(k, v)]) k0 = false
    rw [hasKey_append]
    simp only [hk0, Bool.false_or]
    simp [hasKey, lookupKV]
    exact fun hEq => absurd hEq.symm hk0k

theorem insertKV_wf (acc : List (Str × Json)) (k : Str) (v : Json)
    (ha : wfM acc = true) (hv : wfV v = true) : wfM (insertKV acc k v) = true := by
  by_cases h : hasKey acc k = true
  · simp only [insertKV, h, if_true]
    exact setKV_wf acc k v ha hv
  · simp only [Bool.not_eq_true] at h
    rw [insertKV_fresh acc k v h]
    exact wfM_append_fresh acc k v ha hv h

theorem wfE_append (acc : List Json) (v : Json)
    (ha : wfE acc = true) (hv : wfV v = true) : wfE (acc ++ [v]) = true := by
  induction acc with
  | nil => simp [wfE, hv]
  | cons x rest ih =>
    simp only [wfE, Bool.and_eq_true] at ha
    simp only [List.cons_append, wfE, Bool.and_eq_true]
    exact ⟨ha.1, ih ha.2⟩

end Json

theorem parse_wf : ∀ fuel : Nat,
    (∀ cs x r, parseValue fuel cs = some (x, r) → Json.wfV x = true) ∧
    (∀ cs acc x r, Json.wfM acc = true → parseMembers fuel cs acc = some (x, r) →
      Json.wfV x = true) ∧
    (∀ cs acc x r, Json.wfE acc = true → parseElements fuel cs acc = some (x, r) →
      Json.wfV x = true) := by
  intro fuel
  induction fuel with
  | zero =>
    refine ⟨?_, ?_, ?_⟩
    · intro cs x r h; exact absurd h (by simp [parseValue])
    · intro cs acc x r _ h; exact absurd h (by simp [parseMembers])
    · intro cs acc x r _ h; exact absurd h (by simp [parseElements])
  | succ fuel ih =>
    obtain ⟨ihV, ihM, ihE⟩ := ih
    refine ⟨?_, ?_, ?_⟩
    · intro cs x r h
      rw [parseValue] at h
      repeat' split at h
      all_goals
        first
          | exact ihM _ _ _ _ (by simp [Json.wfM]) h
          | exact ihE _ _ _ _ (by simp [Json.wfE]) h
          | (simp at h
             all_goals
               (obtain ⟨rfl, -⟩ := h
                simp [Json.wfV, Json.wfM, Json.wfE]))
    · intro cs acc x r hacc h
      cases cs with
      | nil => simp [parseMembers] at h
      | cons c rest =>
        by_cases hc : c = '"'
        · subst hc
          rw [parseMembers] at h
          split at h
          · exact absurd h (by simp)
          · rename_i k r1 heqs
            split at h
            · rename_i r2 heqw
              split at h
              · exact absurd h (by simp)
              · rename_i v r3 heqv
                have hwv : Json.wfV v = true := ihV _ _ _ heqv
                have hacc2 := Json.insertKV_wf acc k v hacc hwv
                split at h
                · exact ihM _ _ _ _ hacc2 h
                · simp only [Option.some.injEq, Prod.mk.injEq] at h
                  obtain ⟨rfl, -⟩ := h
                  simpa [Json.wfV] using hacc2
                · exact absurd h (by simp)
            · exact absurd h (by simp)
        · simp [parseMembers, hc] at h
    · intro cs acc x r hacc h
      rw [parseElements] at h
      split at h
      · exact absurd h (by simp)
      · rename_i v r1 heqv
        have hwv : Json.wfV v = true := ihV _ _ _ heqv
        have hacc2 := Json.wfE_append acc v hacc hwv
        split at h
        · exact ihE _ _ _ _ hacc2 h
        · simp only [Option.some.injEq, Prod.mk.injEq] at h
          obtain ⟨rfl, -⟩ := h
          simpa [Json.wfV] using hacc2
        · exact absurd h (by simp)

/-- A document assembled by the parser is well-formed. -/
theorem loads_wf (cs : Str) (x : Json) (h : loads cs = some x) : Json.wfV x = true := by
  simp only [loads] at h
  split at h
  · rename_i v rest heq
    split at h
    · simp only [Option.some.injEq] at h
      subst h
      exact (parse_wf (cs.length + 1)).1 cs _ rest heq
    · exact absurd h (by simp)
  · exact absurd h (by simp)

/-! ## The parser consumes at least the size of what it produces -/

theorem parseHex4_size : ∀ cs n r, parseHex4 cs = some (n, r) → r.length + 4 = cs.length := by
  intro cs n r h
  match cs with
  | [] => simp [parseHex4] at h
  | [_] => simp [parseHex4] at h
  | [_, _] => simp [parseHex4] at h
  | [_, _, _] => simp [parseHex4] at h
  | a :: b :: c :: d :: rest =>
    rw [parseHex4] at h
    split at h
    · simp only [Option.some.injEq, Prod.mk.injEq] at h
      obtain ⟨-, rfl⟩ := h
      simp
    · exact absurd h (by simp)

theorem parseStrBody_nil : ∀ fuel, parseStrBody fuel [] = none := by
  intro fuel; cases fuel <;> simp [parseStrBody]

theorem parseStrBody_size : ∀ fuel cs s r,
    parseStrBody fuel cs = some (s, r) → s.length + 1 + r.length ≤ cs.length := by
  intro fuel
  induction fuel with
  | zero => intro cs s r h; exact absurd h (by simp [parseStrBody])
  | succ fuel ih =>
    intro cs s r h
    cases cs with
    | nil => simp [parseStrBody] at h
    | cons c rest =>
      cases rest with
      | nil =>
        rw [parseStrBody] at h
        by_cases h1 : c = '"'
        · simp only [if_pos h1] at h
          simp only [Option.some.injEq, Prod.mk.injEq] at h
          obtain ⟨rfl, rfl⟩ := h
          simp
        · simp only [if_neg h1] at h
          by_cases h2 : c = '\\'
          · simp [h2] at h
          · simp only [if_neg h2] at h
            by_cases h3 : c.toNat < 32
            · simp [h3] at h
            · simp only [if_neg h3] at h
              rw [parseStrBody_nil] at h
              simp at h
      | cons e rest2 =>
        rw [parseStrBody] at h
        by_cases h1 : c = '"'
        · simp only [if_pos h1] at h
          simp only [Option.some.injEq, Prod.mk.injEq] at h
          obtain ⟨rfl, rfl⟩ := h
          simp only [List.length_cons, List.length_nil]
          omega
        · simp only [if_neg h1] at h
          by_cases h2 : c = '\\'
          · simp only [if_pos h2] at h
            by_cases h3 : e = 'u'
            · simp only [if_pos h3] at h
              split at h
              · exact absurd h (by simp)
              · rename_i n r1 hh4
                have hs4 := parseHex4_size _ _ _ hh4
                split at h
                · split at h
                  · split at h
                    · exact absurd h (by simp)
                    · rename_i m r3 hh42
                      have hs42 := parseHex4_size _ _ _ hh42
                      split at h
                      · split at h
                        · rename_i s2 r4 hsb
                          have hrec := ih _ _ _ hsb
                          simp only [Option.some.injEq, Prod.mk.injEq] at h
                          obtain ⟨rfl, rfl⟩ := h
                          simp only [List.length_cons] at hs4 ⊢
                          omega
                        · exact absurd h (by simp)
                      · exact absurd h (by simp)
                  · exact absurd h (by simp)
                · split at h
                  · exact absurd h (by simp)
                  · split at h
                    · rename_i s2 r4 hsb
                      have hrec := ih _ _ _ hsb
                      simp only [Option.some.injEq, Prod.mk.injEq] at h
                      obtain ⟨rfl, rfl⟩ := h
                      simp only [List.length_cons]
                      omega
                    · exact absurd h (by simp)
            · simp only [if_neg h3] at h
              split at h
              · exact absurd h (by simp)
              · split at h
                · rename_i s2 r4 hsb
                  have hrec := ih _ _ _ hsb
                  simp only [Option.some.injEq, Prod.mk.injEq] at h
                  obtain ⟨rfl, rfl⟩ := h
                  simp only [List.length_cons]
                  omega
                · exact absurd h (by simp)
          · simp only [if_neg h2] at h
            by_cases h3 : c.toNat < 32
            · simp [h3] at h
            · simp only [if_neg h3] at h
              split at h
              · rename_i s2 r4 hsb
                have hrec := ih _ _ _ hsb
                simp only [Option.some.injEq, Prod.mk.injEq] at h
                obtain ⟨rfl, rfl⟩ := h
                simp only [List.length_cons] at hrec ⊢
                omega
              · exact absurd h (by simp)

theorem parseNat_size : ∀ cs n r, parseNat cs = some (n, r) → r.length + 1 ≤ cs.length := by
  intro cs n r h
  cases cs with
  | nil => simp [parseNat] at h
  | cons c rest =>
    rw [parseNat] at h
    by_cases h1 : c = '0'
    · simp only [if_pos h1] at h
      simp only [Option.some.injEq, Prod.mk.injEq] at h
      obtain ⟨-, rfl⟩ := h
      simp
    · simp only [if_neg h1] at h
      split at h
      · simp only [Option.some.injEq, Prod.mk.injEq] at h
        obtain ⟨-, rfl⟩ := h
        have hdw : (rest.dropWhile Char.isDigit).length ≤ rest.length := by
          induction rest with
          | nil => simp
          | cons d t iht =>
            by_cases hd : d.isDigit = true
            · simp only [List.dropWhile, hd]
              simp only [List.length_cons]
              omega
            · simp only [Bool.not_eq_true] at hd
              simp [List.dropWhile, hd]
        simp only [List.length_cons]
        omega
      · exact absurd h (by simp)

namespace Json

theorem sizeM_append (l1 l2 : List (Str × Json)) :
    sizeM (l1 ++ l2) = sizeM l1 + sizeM l2 := by
  induction l1 with
  | nil => simp [sizeM]
  | cons p rest ih =>
    obtain ⟨k, v⟩ := p
    show sizeM ((k, v) :: (rest ++ l2)) = _
    simp only [sizeM]
    rw [ih]
    omega

theorem sizeE_append (l1 l2 : List Json) :
    sizeE (l1 ++ l2) = sizeE l1 + sizeE l2 := by
  induction l1 with
  | nil => simp [sizeE]
  | cons x rest ih =>
    show sizeE (x :: (rest ++ l2)) = _
    simp only [sizeE]
    rw [ih]
    omega

theorem sizeM_setKV (l : List (Str × Json)) (k : Str) (v : Json) :
    sizeM (setKV l k v) ≤ sizeM l + 1 + sizeJ v := by
  induction l with
  | nil => simp [setKV, sizeM]
  | cons p rest ih =>
    obtain ⟨k0, v0⟩ := p
    by_cases h : k0 = k
    · simp only [setKV, if_pos h, sizeM]
      omega
    · simp only [setKV, if_neg h, sizeM]
      omega

theorem sizeM_insertKV (acc : List (Str × Json)) (k : Str) (v : Json) :
    sizeM (insertKV acc k v) ≤ sizeM acc + 1 + sizeJ v := by
  by_cases h : hasKey acc k
  · simp only [insertKV, h, if_true]
    exact sizeM_setKV acc k v
  · simp only [Bool.not_eq_true] at h
    rw [insertKV_fresh acc k v h, sizeM_append]
    simp [sizeM]
    omega

end Json

theorem parse_size : ∀ fuel : Nat,
    (∀ cs x r, parseValue fuel cs = some (x, r) →
      Json.sizeJ x + r.length ≤ cs.length) ∧
    (∀ cs acc x r, parseMembers fuel cs acc = some (x, r) →
      Json.sizeJ x + r.length ≤ 1 + Json.sizeM acc + cs.length) ∧
    (∀ cs acc x r, parseElements fuel cs acc = some (x, r) →
      Json.sizeJ x + r.length ≤ 1 + Json.sizeE acc + cs.length) := by
  intro fuel
  induction fuel with
  | zero =>
    refine ⟨?_, ?_, ?_⟩
    · intro cs x r h; exact absurd h (by simp [parseValue])
    · intro cs acc x r h; exact absurd h (by simp [parseMembers])
    · intro cs acc x r h; exact absurd h (by simp [parseElements])
  | succ fuel ih =>
    obtain ⟨ihV, ihM, ihE⟩ := ih
    refine ⟨?_, ?_, ?_⟩
    · intro cs x r h
      rw [parseValue] at h
      split at h
      · exact absurd h (by simp)
      · rename_i c rest heq1
        have hlcs : rest.length + 1 ≤ cs.length := by
          have h1 := skipWs_length cs
          rw [heq1] at h1
          simp only [List.length_cons] at h1
          omega
        split at h
        · -- object
          split at h
          · rename_i r1 heq2
            have hl2 : r1.length + 1 ≤ rest.length := by
              have h2 := skipWs_length rest
              rw [heq2] at h2
              simp only [List.length_cons] at h2
              omega
            simp only [Option.some.injEq, Prod.mk.injEq] at h
            obtain ⟨rfl, rfl⟩ := h
            simp only [Json.sizeJ, Json.sizeM]
            omega
          · have hm := ihM _ _ _ _ h
            have h2 := skipWs_length rest
            simp only [Json.sizeM] at hm
            omega
        · -- array
          split at h
          · split at h
            · rename_i r1 heq2
              have hl2 : r1.length + 1 ≤ rest.length := by
                have h2 := skipWs_length rest
                rw [heq2] at h2
                simp only [List.length_cons] at h2
                omega
              simp only [Option.some.injEq, Prod.mk.injEq] at h
              obtain ⟨rfl, rfl⟩ := h
              simp only [Json.sizeJ, Json.sizeE]
              omega
            · have hm := ihE _ _ _ _ h
              have h2 := skipWs_length rest
              simp only [Json.sizeE] at hm
              omega
          · -- string
            split at h
            · split at h
              · rename_i s r1 heqs
                have hs := parseStrBody_size _ _ _ _ heqs
                simp only [Option.some.injEq, Prod.mk.injEq] at h
                obtain ⟨rfl, rfl⟩ := h
                simp only [Json.sizeJ]
                omega
              · exact absurd h (by simp)
            · -- true literal
              split at h
              · split at h
                · rename_i r1
                  simp only [Option.some.injEq, Prod.mk.injEq] at h
                  obtain ⟨rfl, rfl⟩ := h
                  simp only [List.length_cons] at hlcs
                  simp only [Json.sizeJ]
                  omega
                · exact absurd h (by simp)
              · -- false literal
                split at h
                · split at h
                  · rename_i r1
                    simp only [Option.some.injEq, Prod.mk.injEq] at h
                    obtain ⟨rfl, rfl⟩ := h
                    simp only [List.length_cons] at hlcs
                    simp only [Json.sizeJ]
                    omega
                  · exact absurd h (by simp)
                · -- null literal
                  split at h
                  · split at h
                    · rename_i r1
                      simp only [Option.some.injEq, Prod.mk.injEq] at h
                      obtain ⟨rfl, rfl⟩ := h
                      simp only [List.length_cons] at hlcs
                      simp only [Json.sizeJ]
                      omega
                    · exact absurd h (by simp)
                  · -- negative number
                    split at h
                    · split at h
                      · rename_i n r1 heqn
                        have hpn := parseNat_size _ _ _ heqn
                        split at h
                        · simp only [Option.some.injEq, Prod.mk.injEq] at h
                          obtain ⟨rfl, rfl⟩ := h
                          simp only [Json.sizeJ]
                          omega
                        · exact absurd h (by simp)
                      · exact absurd h (by simp)
                    · -- non-negative number
                      split at h
                      · split at h
                        · rename_i n r1 heqn
                          have hpn := parseNat_size _ _ _ heqn
                          simp only [List.length_cons] at hpn
                          split at h
                          · simp only [Option.some.injEq, Prod.mk.injEq] at h
                            obtain ⟨rfl, rfl⟩ := h
                            simp only [Json.sizeJ]
                            omega
                          · exact absurd h (by simp)
                        · exact absurd h (by simp)
                      · exact absurd h (by simp)
    · intro cs acc x r h
      cases cs with
      | nil => simp [parseMembers] at h
      | cons c rest =>
        by_cases hc : c = '"'
        · subst hc
          rw [parseMembers] at h
          split at h
          · exact absurd h (by simp)
          · rename_i k r1 heqs
            have hps := parseStrBody_size _ _ _ _ heqs
            split at h
            · rename_i r2 heqc
              have hl2 : r2.length + 1 ≤ r1.length := by
                have := skipWs_length r1
                rw [heqc] at this
                simp only [List.length_cons] at this
                omega
              split at h
              · exact absurd h (by simp)
              · rename_i v r3 heqv
                have hv := ihV _ _ _ heqv
                have hins := Json.sizeM_insertKV acc k v
                split at h
                · rename_i r4 heq4
                  have hl4 : r4.length + 1 ≤ r3.length := by
                    have := skipWs_length r3
                    rw [heq4] at this
                    simp only [List.length_cons] at this
                    omega
                  have hm := ihM _ _ _ _ h
                  have hl5 := skipWs_length r4
                  simp only [List.length_cons]
                  omega
                · rename_i r4 heq4
                  have hl4 : r4.length + 1 ≤ r3.length := by
                    have := skipWs_length r3
                    rw [heq4] at this
                    simp only [List.length_cons] at this
                    omega
                  simp only [Option.some.injEq, Prod.mk.injEq] at h
                  obtain ⟨rfl, rfl⟩ := h
                  simp only [Json.sizeJ, List.length_cons]
                  omega
                · exact absurd h (by simp)
            · exact absurd h (by simp)
        · simp [parseMembers, hc] at h
    · intro cs acc x r h
      rw [parseElements] at h
      split at h
      · exact absurd h (by simp)
      · rename_i v r1 heqv
        have hv := ihV _ _ _ heqv
        split at h
        · rename_i r2 heq2
          have hl2 : r2.length + 1 ≤ r1.length := by
            have := skipWs_length r1
            rw [heq2] at this
            simp only [List.length_cons] at this
            omega
          have he := ihE _ _ _ _ h
          rw [Json.sizeE_append] at he
          simp only [Json.sizeE] at he
          omega
        · rename_i r2 heq2
          have hl2 : r2.length + 1 ≤ r1.length := by
            have := skipWs_length r1
            rw [heq2] at this
            simp only [List.length_cons] at this
            omega
          simp only [Option.some.injEq, Prod.mk.injEq] at h
          obtain ⟨rfl, rfl⟩ := h
          simp only [Json.sizeJ, Json.sizeE_append, Json.sizeE]
          omega
        · exact absurd h (by simp)

/-- A parsed document is no larger than its source text. -/
theorem loads_size (cs : Str) (x : Json) (h : loads cs = some x) :
    Json.sizeJ x ≤ cs.length := by
  simp only [loads] at h
  split at h
  · rename_i v rest heq
    split at h
    · simp only [Option.some.injEq] at h
      subst h
      have := (parse_size (cs.length + 1)).1 cs _ rest heq
      omega
    · exact absurd h (by simp)
  · exact absurd h (by simp)

/-! ## The Address Normalizer: `fix_coinbase_in_json`

The Python function recurses not only into nested dicts and lists but
also into documents parsed out of embedded `cChainGenesis` strings, so
its recursion is not structural on `Json`.  We embed it with an explicit
fuel parameter; `parse_size` shows a parsed document is no larger than
its source string, so `sizeJ x + 1` units of fuel always suffice
(`fixJF_fuel_indep` below makes the fuel choice immaterial), and the
fuelled function equals the Python recursion wherever the latter
terminates.  `Option.none` models an uncaught `AttributeError`, raised
by line 17 when a `coinbase` value is not a string. -/

/-- The diagnostics printed by the normalizer: one correction line per
truncated coinbase, one warning line per unexpected length. -/
inductive FixEvent where
  | fixedCoinbase (oldVal newVal : Str) : FixEvent
  | warnLength (hexLen : Nat) (value : Str) : FixEvent

/-- The key `'coinbase'`. -/
def coinbaseKey : Str := "coinbase".toList

/-- The key `'cChainGenesis'`. -/
def cChainGenesisKey : Str := "cChainGenesis".toList

/-- `coinbase.startswith('0x')`. -/
def startsWith0x : Str → Bool
  | '0' :: 'x' :: _ => true
  | _ => false

/-- Lines 17–24 of `fix_genesis_coinbase.py`, as a transform of one
coinbase string value together with the diagnostics it prints: a
64-character hex payload is truncated to its first 40 characters and one
correction is recorded; a payload of any other length except 40 is left
unchanged with one warning; everything else is left unchanged silently. -/
def fixCoinbaseValue (s : Str) : Str × List FixEvent :=
  if startsWith0x s then
    if (s.drop 2).length = 64 then
      ('0' :: 'x' :: (s.drop 2).take 40,
       [.fixedCoinbase s ('0' :: 'x' :: (s.drop 2).take 40)])
    else if (s.drop 2).length ≠ 40 then (s, [.warnLength (s.drop 2).length s])
    else (s, [])
  else (s, [])

/-- Lines 15–24: the coinbase field handling of one dict.  The dict is
updated only in the truncation branch (`data['coinbase'] = ...`);
`none` models the uncaught `AttributeError` of `coinbase.startswith`
when the value is not a string. -/
def fixCoinbaseEntry (kvs : List (Str × Json)) :
    Option (List (Str × Json) × List FixEvent) :=
  match Json.lookupKV kvs coinbaseKey with
  | none => some (kvs, [])
  | some (.str s) =>
    if startsWith0x s then
      if (s.drop 2).length = 64 then
        some (Json.setKV kvs coinbaseKey (.str ('0' :: 'x' :: (s.drop 2).take 40)),
              [.fixedCoinbase s ('0' :: 'x' :: (s.drop 2).take 40)])
      else if (s.drop 2).length ≠ 40 then some (kvs, [.warnLength (s.drop 2).length s])
      else some (kvs, [])
    else some (kvs, [])
  | some _ => none

mutual
/-- `fix_coinbase_in_json(data)` (lines 12–40), fuelled.  A dict first
has its `coinbase` field fixed, then every value is visited in insertion
order; a list visits every element. -/
def fixJF : Nat → Json → Option (Json × List FixEvent)
  | 0, _ => none
  | fuel + 1, x =>
    match x with
    | .obj kvs =>
      match fixCoinbaseEntry kvs with
      | none => none
      | some (kvs1, ev1) =>
        match fixMembersF fuel kvs1 with
        | none => none
        | some (kvs2, ev2) => some (.obj kvs2, ev1 ++ ev2)
    | .arr xs =>
      match fixElemsF fuel xs with
      | none => none
      | some (xs2, ev) => some (.arr xs2, ev)
    | v => some (v, [])

/-- Lines 26–37: the `for key, value in data.items()` loop.  Dict and
list values are recursed into; a string value under `cChainGenesis` is
parsed, fixed, and re-serialized with the compact encoding, a parse
failure leaving the value untouched; all other values are unchanged. -/
def fixMembersF : Nat → List (Str × Json) →
    Option (List (Str × Json) × List FixEvent)
  | 0, _ => none
  | fuel + 1, kvs =>
    match kvs with
    | [] => some ([], [])
    | (k, v) :: rest =>
      match v with
      | .obj kvs0 =>
        match fixJF fuel (.obj kvs0) with
        | none => none
        | some (v2, ev1) =>
          match fixMembersF fuel rest with
          | none => none
          | some (rest2, ev2) => some ((k, v2) :: rest2, ev1 ++ ev2)
      | .arr xs0 =>
        match fixJF fuel (.arr xs0) with
        | none => none
        | some (v2, ev1) =>
          match fixMembersF fuel rest with
          | none => none
          | some (rest2, ev2) => some ((k, v2) :: rest2, ev1 ++ ev2)
      | .str s =>
        if k = cChainGenesisKey then
          match loads s with
          | some e =>
            match fixJF fuel e with
            | none => none
            | some (e2, ev1) =>
              match fixMembersF fuel rest with
              | none => none
              | some (rest2, ev2) =>
                some ((k, .str (dumps e2)) :: rest2, ev1 ++ ev2)
          | none =>
            match fixMembersF fuel rest with
            | none => none
            | some (rest2, ev2) => some ((k, .str s) :: rest2, ev2)
        else
          match fixMembersF fuel rest with
          | none => none
          | some (rest2, ev2) => some ((k, .str s) :: rest2, ev2)
      | v =>
        match fixMembersF fuel rest with
        | none => none
        | some (rest2, ev2) => some ((k, v) :: rest2, ev2)

/-- Lines 38–40: the list branch visits every element. -/
def fixElemsF : Nat → List Json → Option (List Json × List FixEvent)
  | 0, _ => none
  | fuel + 1, xs =>
    match xs with
    | [] => some ([], [])
    | x :: rest =>
      match fixJF fuel x with
      | none => none
      | some (x2, ev1) =>
        match fixElemsF fuel rest with
        | none => none
        | some (rest2, ev2) => some (x2 :: rest2, ev1 ++ ev2)
end

/-- `fix_coinbase_in_json(data)` as a whole-document operation, with
always-sufficient fuel. -/
def fixCoinbaseInJson (x : Json) : Option (Json × List FixEvent) :=
  fixJF (Json.sizeJ x + 1) x

/-- The normalizer viewed as a document transform (dropping the printed
diagnostics); `none` is the uncaught-exception outcome. -/
def normalizeJson (x : Json) : Option Json := (fixCoinbaseInJson x).map Prod.fst

/-! ## Fuel bookkeeping for the normalizer -/

namespace Json

theorem lookupKV_setKV_self (l : List (Str × Json)) (k : Str) (v : Json) :
    hasKey l k = true → lookupKV (setKV l k v) k = some v := by
  induction l with
  | nil => simp [hasKey, lookupKV]
  | cons p rest ih =>
    obtain ⟨k0, v0⟩ := p
    intro hk
    by_cases h : k0 = k
    · simp [setKV, h, lookupKV]
    · simp only [setKV, if_neg h, lookupKV, if_neg h]
      simp only [hasKey, lookupKV, if_neg h] at hk
      exact ih hk

theorem lookupKV_setKV_other (l : List (Str × Json)) (k : Str) (v : Json) (k' : Str)
    (hne : k' ≠ k) : lookupKV (setKV l k v) k' = lookupKV l k' := by
  induction l with
  | nil => simp [setKV]
  | cons p rest ih =>
    obtain ⟨k0, v0⟩ := p
    by_cases h : k0 = k
    · simp only [setKV, if_pos h, lookupKV]
      have hne2 : k0 ≠ k' := by rw [h]; exact fun hEq => hne hEq.symm
      simp [hne2]
    · simp only [setKV, if_neg h, lookupKV]
      by_cases h2 : k0 = k'
      · simp [h2]
      · simp [h2, ih]

theorem sizeM_setKV_str (l : List (Str × Json)) (k : Str) (s s2 : Str)
    (hlen : s2.length ≤ s.length) :
    lookupKV l k = some (.str s) →
    sizeM (setKV l k (.str s2)) ≤ sizeM l := by
  induction l with
  | nil => simp [setKV]
  | cons p rest ih =>
    obtain ⟨k0, v0⟩ := p
    intro hl
    by_cases h : k0 = k
    · simp only [lookupKV, if_pos h, Option.some.injEq] at hl
      subst hl
      simp only [setKV, if_pos h, sizeM, sizeJ]
      omega
    · simp only [lookupKV, if_neg h] at hl
      simp only [setKV, if_neg h, sizeM]
      have := ih hl
      omega

end Json

theorem fixCoinbaseEntry_size (kvs kvs1 : List (Str × Json)) (ev : List FixEvent)
    (h : fixCoinbaseEntry kvs = some (kvs1, ev)) : Json.sizeM kvs1 ≤ Json.sizeM kvs := by
  rw [fixCoinbaseEntry] at h
  split at h
  · simp only [Option.some.injEq, Prod.mk.injEq] at h
    obtain ⟨rfl, -⟩ := h
    omega
  · rename_i s hl
    split at h
    · split at h
      · rename_i hlen64
        simp only [Option.some.injEq, Prod.mk.injEq] at h
        obtain ⟨rfl, -⟩ := h
        have hd : (List.drop 2 s).length = s.length - 2 := by simp
        have ht : ('0' :: 'x' :: List.take 40 (List.drop 2 s)).length ≤ s.length := by
          simp only [List.length_cons, List.length_take]
          omega
        exact Json.sizeM_setKV_str kvs coinbaseKey s _ ht hl
      · split at h
        · simp only [Option.some.injEq, Prod.mk.injEq] at h
          obtain ⟨rfl, -⟩ := h
          omega
        · simp only [Option.some.injEq, Prod.mk.injEq] at h
          obtain ⟨rfl, -⟩ := h
          omega
    · simp only [Option.some.injEq, Prod.mk.injEq] at h
      obtain ⟨rfl, -⟩ := h
      omega
  · exact absurd h (by simp)

/-- Unfolding equations for the fuelled normalizer, stated once so later
proofs can rewrite without touching the equation compiler's conditional
equations. -/
theorem fixJF_obj (fuel : Nat) (kvs : List (Str × Json)) :
    fixJF (fuel + 1) (.obj kvs) =
      match fixCoinbaseEntry kvs with
      | none => none
      | some (kvs1, ev1) =>
        match fixMembersF fuel kvs1 with
        | none => none
        | some (kvs2, ev2) => some (.obj kvs2, ev1 ++ ev2) := rfl

theorem fixJF_arr (fuel : Nat) (xs : List Json) :
    fixJF (fuel + 1) (.arr xs) =
      match fixElemsF fuel xs with
      | none => none
      | some (xs2, ev) => some (.arr xs2, ev) := rfl

theorem fixJF_null (fuel : Nat) : fixJF (fuel + 1) .null = some (.null, []) := rfl

theorem fixJF_bool (fuel : Nat) (b : Bool) :
    fixJF (fuel + 1) (.bool b) = some (.bool b, []) := rfl

theorem fixJF_num (fuel : Nat) (n : Int) :
    fixJF (fuel + 1) (.num n) = some (.num n, []) := rfl

theorem fixJF_str (fuel : Nat) (s : Str) :
    fixJF (fuel + 1) (.str s) = some (.str s, []) := rfl

theorem fixMembersF_nil (fuel : Nat) : fixMembersF (fuel + 1) [] = some ([], []) := rfl

theorem fixMembersF_obj (fuel : Nat) (k : Str) (kvs0 rest : List (Str × Json)) :
    fixMembersF (fuel + 1) ((k, .obj kvs0) :: rest) =
      match fixJF fuel (.obj kvs0) with
      | none => none
      | some (v2, ev1) =>
        match fixMembersF fuel rest with
        | none => none
        | some (rest2, ev2) => some ((k, v2) :: rest2, ev1 ++ ev2) := rfl

theorem fixMembersF_arr (fuel : Nat) (k : Str) (xs0 : List Json)
    (rest : List (Str × Json)) :
    fixMembersF (fuel + 1) ((k, .arr xs0) :: rest) =
      match fixJF fuel (.arr xs0) with
      | none => none
      | some (v2, ev1) =>
        match fixMembersF fuel rest with
        | none => none
        | some (rest2, ev2) => some ((k, v2) :: rest2, ev1 ++ ev2) := rfl

theorem fixMembersF_str (fuel : Nat) (k : Str) (s : Str) (rest : List (Str × Json)) :
    fixMembersF (fuel + 1) ((k, .str s) :: rest) =
      if k = cChainGenesisKey then
        match loads s with
        | some e =>
          match fixJF fuel e with
          | none => none
          | some (e2, ev1) =>
            match fixMembersF fuel rest with
            | none => none
            | some (rest2, ev2) =>
              some ((k, .str (dumps e2)) :: rest2, ev1 ++ ev2)
        | none =>
          match fixMembersF fuel rest with
          | none => none
          | some (rest2, ev2) => some ((k, .str s) :: rest2, ev2)
      else
        match fixMembersF fuel rest with
        | none => none
        | some (rest2, ev2) => some ((k, .str s) :: rest2, ev2) := rfl

theorem fixMembersF_null (fuel : Nat) (k : Str) (rest : List (Str × Json)) :
    fixMembersF (fuel + 1) ((k, .null) :: rest) =
      match fixMembersF fuel rest with
      | none => none
      | some (rest2, ev2) => some ((k, .null) :: rest2, ev2) := rfl

theorem fixMembersF_bool (fuel : Nat) (k : Str) (b : Bool) (rest : List (Str × Json)) :
    fixMembersF (fuel + 1) ((k, .bool b) :: rest) =
      match fixMembersF fuel rest with
      | none => none
      | some (rest2, ev2) => some ((k, .bool b) :: rest2, ev2) := rfl

theorem fixMembersF_num (fuel : Nat) (k : Str) (n : Int) (rest : List (Str × Json)) :
    fixMembersF (fuel + 1) ((k, .num n) :: rest) =
      match fixMembersF fuel rest with
      | none => none
      | some (rest2, ev2) => some ((k, .num n) :: rest2, ev2) := rfl

theorem fixElemsF_nil (fuel : Nat) : fixElemsF (fuel + 1) [] = some ([], []) := rfl

theorem fixElemsF_cons (fuel : Nat) (x : Json) (rest : List Json) :
    fixElemsF (fuel + 1) (x :: rest) =
      match fixJF fuel x with
      | none => none
      | some (x2, ev1) =>
        match fixElemsF fuel rest with
        | none => none
        | some (rest2, ev2) => some (x2 :: rest2, ev1 ++ ev2) := rfl

/-- Fuel monotonicity: once the fuelled normalizer succeeds, any larger
fuel returns the same result. -/
theorem fix_mono : ∀ fuel : Nat,
    (∀ x f2 r, fixJF fuel x = some r → fuel ≤ f2 → fixJF f2 x = some r) ∧
    (∀ kvs f2 r, fixMembersF fuel kvs = some r → fuel ≤ f2 →
      fixMembersF f2 kvs = some r) ∧
    (∀ xs f2 r, fixElemsF fuel xs = some r → fuel ≤ f2 →
      fixElemsF f2 xs = some r) := by
  intro fuel
  induction fuel with
  | zero =>
    refine ⟨?_, ?_, ?_⟩ <;> intro a f2 r h _ <;>
      simp [fixJF, fixMembersF, fixElemsF] at h
  | succ fuel ih =>
    obtain ⟨ihV, ihM, ihE⟩ := ih
    refine ⟨?_, ?_, ?_⟩
    · intro x f2 r h hle
      obtain ⟨g, rfl⟩ : ∃ g, f2 = g + 1 := ⟨f2 - 1, by omega⟩
      have hg : fuel ≤ g := by omega
      cases x with
      | obj kvs =>
        rw [fixJF_obj] at h ⊢
        cases hce : fixCoinbaseEntry kvs with
        | none => simp [hce] at h
        | some p =>
          obtain ⟨kvs1, ev1⟩ := p
          simp only [hce] at h ⊢
          cases hm : fixMembersF fuel kvs1 with
          | none => simp [hm] at h
          | some q =>
            obtain ⟨kvs2, ev2⟩ := q
            simp only [hm] at h
            simp only [ihM kvs1 g (kvs2, ev2) hm hg]
            exact h
      | arr xs =>
        rw [fixJF_arr] at h ⊢
        cases he : fixElemsF fuel xs with
        | none => simp [he] at h
        | some q =>
          obtain ⟨xs2, ev⟩ := q
          simp only [he] at h
          simp only [ihE xs g (xs2, ev) he hg]
          exact h
      | null => rw [fixJF_null] at h; rw [fixJF_null]; exact h
      | bool b => rw [fixJF_bool] at h; rw [fixJF_bool]; exact h
      | num n => rw [fixJF_num] at h; rw [fixJF_num]; exact h
      | str s => rw [fixJF_str] at h; rw [fixJF_str]; exact h
    · intro kvs f2 r h hle
      obtain ⟨g, rfl⟩ : ∃ g, f2 = g + 1 := ⟨f2 - 1, by omega⟩
      have hg : fuel ≤ g := by omega
      cases kvs with
      | nil => rw [fixMembersF_nil] at h; rw [fixMembersF_nil]; exact h
      | cons hd rest =>
        obtain ⟨k, v⟩ := hd
        cases v with
        | obj kvs0 =>
          rw [fixMembersF_obj] at h ⊢
          cases hj : fixJF fuel (.obj kvs0) with
          | none => simp [hj] at h
          | some p =>
            obtain ⟨v2, ev1⟩ := p
            simp only [hj] at h
            simp only [ihV _ g _ hj hg]
            cases hm : fixMembersF fuel rest with
            | none => simp [hm] at h
            | some q =>
              obtain ⟨rest2, ev2⟩ := q
              simp only [hm] at h
              simp only [ihM _ g _ hm hg]
              exact h
        | arr xs0 =>
          rw [fixMembersF_arr] at h ⊢
          cases hj : fixJF fuel (.arr xs0) with
          | none => simp [hj] at h
          | some p =>
            obtain ⟨v2, ev1⟩ := p
            simp only [hj] at h
            simp only [ihV _ g _ hj hg]
            cases hm : fixMembersF fuel rest with
            | none => simp [hm] at h
            | some q =>
              obtain ⟨rest2, ev2⟩ := q
              simp only [hm] at h
              simp only [ihM _ g _ hm hg]
              exact h
        | str s =>
          rw [fixMembersF_str] at h ⊢
          by_cases hk : k = cChainGenesisKey
          · rw [if_pos hk] at h ⊢
            cases hl : loads s with
            | some e =>
              simp only [hl] at h ⊢
              cases hj : fixJF fuel e with
              | none => simp [hj] at h
              | some p =>
                obtain ⟨e2, ev1⟩ := p
                simp only [hj] at h
                simp only [ihV _ g _ hj hg]
                cases hm : fixMembersF fuel rest with
                | none => simp [hm] at h
                | some q =>
                  obtain ⟨rest2, ev2⟩ := q
                  simp only [hm] at h
                  simp only [ihM _ g _ hm hg]
                  exact h
            | none =>
              simp only [hl] at h ⊢
              cases hm : fixMembersF fuel rest with
              | none => simp [hm] at h
              | some q =>
                obtain ⟨rest2, ev2⟩ := q
                simp only [hm] at h
                simp only [ihM _ g _ hm hg]
                exact h
          · rw [if_neg hk] at h ⊢
            cases hm : fixMembersF fuel rest with
            | none => simp [hm] at h
            | some q =>
              obtain ⟨rest2, ev2⟩ := q
              simp only [hm] at h
              simp only [ihM _ g _ hm hg]
              exact h
        | null =>
          rw [fixMembersF_null] at h ⊢
          cases hm : fixMembersF fuel rest with
          | none => simp [hm] at h
          | some q =>
            obtain ⟨rest2, ev2⟩ := q
            simp only [hm] at h
            simp only [ihM _ g _ hm hg]
            exact h
        | bool b =>
          rw [fixMembersF_bool] at h ⊢
          cases hm : fixMembersF fuel rest with
          | none => simp [hm] at h
          | some q =>
            obtain ⟨rest2, ev2⟩ := q
            simp only [hm] at h
            simp only [ihM _ g _ hm hg]
            exact h
        | num n =>
          rw [fixMembersF_num] at h ⊢
          cases hm : fixMembersF fuel rest with
          | none => simp [hm] at h
          | some q =>
            obtain ⟨rest2, ev2⟩ := q
            simp only [hm] at h
            simp only [ihM _ g _ hm hg]
            exact h
    · intro xs f2 r h hle
      obtain ⟨g, rfl⟩ : ∃ g, f2 = g + 1 := ⟨f2 - 1, by omega⟩
      have hg : fuel ≤ g := by omega
      cases xs with
      | nil => rw [fixElemsF_nil] at h; rw [fixElemsF_nil]; exact h
      | cons x rest =>
        rw [fixElemsF_cons] at h ⊢
        cases hj : fixJF fuel x with
        | none => simp [hj] at h
        | some p =>
          obtain ⟨x2, ev1⟩ := p
          simp only [hj] at h
          simp only [ihV _ g _ hj hg]
          cases he : fixElemsF fuel rest with
          | none => simp [he] at h
          | some q =>
            obtain ⟨rest2, ev2⟩ := q
            simp only [he] at h
            simp only [ihE _ g _ he hg]
            exact h

/-- The member pass never renames, reorders, drops or adds dict entries:
the key list is preserved. -/
theorem fixMembers_keys : ∀ (kvs : List (Str × Json)) (fuel : Nat) kvs2 ev,
    fixMembersF fuel kvs = some (kvs2, ev) →
    kvs2.map Prod.fst = kvs.map Prod.fst := by
  intro kvs
  induction kvs with
  | nil =>
    intro fuel kvs2 ev h
    cases fuel with
    | zero => simp [fixMembersF] at h
    | succ g =>
      rw [fixMembersF_nil] at h
      simp only [Option.some.injEq, Prod.mk.injEq] at h
      obtain ⟨rfl, -⟩ := h
      rfl
  | cons hd rest ih =>
    intro fuel kvs2 ev h
    cases fuel with
    | zero => simp [fixMembersF] at h
    | succ g =>
      obtain ⟨k, v⟩ := hd
      cases v with
      | obj kvs0 =>
        rw [fixMembersF_obj] at h
        cases hj : fixJF g (.obj kvs0) with
        | none => simp [hj] at h
        | some p =>
          obtain ⟨v2, ev1⟩ := p
          simp only [hj] at h
          cases hm : fixMembersF g rest with
          | none => simp [hm] at h
          | some q =>
            obtain ⟨rest2, ev2⟩ := q
            simp only [hm, Option.some.injEq, Prod.mk.injEq] at h
            obtain ⟨rfl, -⟩ := h
            simp [ih g rest2 ev2 hm]
      | arr xs0 =>
        rw [fixMembersF_arr] at h
        cases hj : fixJF g (.arr xs0) with
        | none => simp [hj] at h
        | some p =>
          obtain ⟨v2, ev1⟩ := p
          simp only [hj] at h
          cases hm : fixMembersF g rest with
          | none => simp [hm] at h
          | some q =>
            obtain ⟨rest2, ev2⟩ := q
            simp only [hm, Option.some.injEq, Prod.mk.injEq] at h
            obtain ⟨rfl, -⟩ := h
            simp [ih g rest2 ev2 hm]
      | str s =>
        rw [fixMembersF_str] at h
        by_cases hk : k = cChainGenesisKey
        · rw [if_pos hk] at h
          cases hl : loads s with
          | some e =>
            simp only [hl] at h
            cases hj : fixJF g e with
            | none => simp [hj] at h
            | some p =>
              obtain ⟨e2, ev1⟩ := p
              simp only [hj] at h
              cases hm : fixMembersF g rest with
              | none => simp [hm] at h
              | some q =>
                obtain ⟨rest2, ev2⟩ := q
                simp only [hm, Option.some.injEq, Prod.mk.injEq] at h
                obtain ⟨rfl, -⟩ := h
                simp [ih g rest2 ev2 hm]
          | none =>
            simp only [hl] at h
            cases hm : fixMembersF g rest with
            | none => simp [hm] at h
            | some q =>
              obtain ⟨rest2, ev2⟩ := q
              simp only [hm, Option.some.injEq, Prod.mk.injEq] at h
              obtain ⟨rfl, -⟩ := h
              simp [ih g rest2 ev2 hm]
        · rw [if_neg hk] at h
          cases hm : fixMembersF g rest with
          | none => simp [hm] at h
          | some q =>
            obtain ⟨rest2, ev2⟩ := q
            simp only [hm, Option.some.injEq, Prod.mk.injEq] at h
            obtain ⟨rfl, -⟩ := h
            simp [ih g rest2 ev2 hm]
      | null =>
        rw [fixMembersF_null] at h
        cases hm : fixMembersF g rest with
        | none => simp [hm] at h
        | some q =>
          obtain ⟨rest2, ev2⟩ := q
          simp only [hm, Option.some.injEq, Prod.mk.injEq] at h
          obtain ⟨rfl, -⟩ := h
          simp [ih g rest2 ev2 hm]
      | bool b =>
        rw [fixMembersF_bool] at h
        cases hm : fixMembersF g rest with
        | none => simp [hm] at h
        | some q =>
          obtain ⟨rest2, ev2⟩ := q
          simp only [hm, Option.some.injEq, Prod.mk.injEq] at h
          obtain ⟨rfl, -⟩ := h
          simp [ih g rest2 ev2 hm]
      | num n =>
        rw [fixMembersF_num] at h
        cases hm : fixMembersF g rest with
        | none => simp [hm] at h
        | some q =>
          obtain ⟨rest2, ev2⟩ := q
          simp only [hm, Option.some.injEq, Prod.mk.injEq] at h
          obtain ⟨rfl, -⟩ := h
          simp [ih g rest2 ev2 hm]

/-- `hasKey` depends only on the key list. -/
theorem hasKey_of_keys_eq : ∀ (l1 l2 : List (Str × Json)) (k : Str),
    l1.map Prod.fst = l2.map Prod.fst → Json.hasKey l1 k = Json.hasKey l2 k := by
  intro l1
  induction l1 with
  | nil =>
    intro l2 k h
    cases l2 with
    | nil => rfl
    | cons p r => simp at h
  | cons p r ih =>
    intro l2 k h
    cases l2 with
    | nil => simp at h
    | cons q r2 =>
      obtain ⟨k1, v1⟩ := p
      obtain ⟨k2, v2⟩ := q
      simp only [List.map_cons, List.cons.injEq] at h
      obtain ⟨rfl, hr⟩ := h
      by_cases hk : k1 = k
      · simp [Json.hasKey, Json.lookupKV, hk]
      · simp only [Json.hasKey, Json.lookupKV, if_neg hk]
        exact ih r2 k hr

/-- A key is absent precisely when the lookup fails. -/
theorem lookupKV_eq_none_iff (l : List (Str × Json)) (k : Str) :
    Json.lookupKV l k = none ↔ Json.hasKey l k = false := by
  rw [Json.hasKey]
  cases Json.lookupKV l k <;> simp

/-- The member pass leaves a string value stored under any key other than
`cChainGenesis` untouched, as seen through `lookupKV`. -/
theorem fixMembers_lookup_str : ∀ (kvs : List (Str × Json)) (fuel : Nat) kvs2 ev
    (k0 : Str) (s : Str), k0 ≠ cChainGenesisKey →
    fixMembersF fuel kvs = some (kvs2, ev) →
    Json.lookupKV kvs k0 = some (.str s) →
    Json.lookupKV kvs2 k0 = some (.str s) := by
  intro kvs
  induction kvs with
  | nil => intro fuel kvs2 ev k0 s _ _ hl; simp [Json.lookupKV] at hl
  | cons hd rest ih =>
    intro fuel kvs2 ev k0 s hk0 h hl
    cases fuel with
    | zero => simp [fixMembersF] at h
    | succ g =>
      obtain ⟨k, v⟩ := hd
      by_cases hkk : k = k0
      · subst hkk
        simp [Json.lookupKV] at hl
        subst hl
        rw [fixMembersF_str, if_neg hk0] at h
        cases hm : fixMembersF g rest with
        | none => simp [hm] at h
        | some q =>
          obtain ⟨rest2, ev2⟩ := q
          simp only [hm, Option.some.injEq, Prod.mk.injEq] at h
          obtain ⟨rfl, -⟩ := h
          simp [Json.lookupKV]
      · simp only [Json.lookupKV, if_neg hkk] at hl
        cases v with
        | obj kvs0 =>
          rw [fixMembersF_obj] at h
          cases hj : fixJF g (.obj kvs0) with
          | none => simp [hj] at h
          | some p =>
            obtain ⟨v2, ev1⟩ := p
            simp only [hj] at h
            cases hm : fixMembersF g rest with
            | none => simp [hm] at h
            | some q =>
              obtain ⟨rest2, ev2⟩ := q
              simp only [hm, Option.some.injEq, Prod.mk.injEq] at h
              obtain ⟨rfl, -⟩ := h
              simp only [Json.lookupKV, if_neg hkk]
              exact ih g rest2 ev2 k0 s hk0 hm hl
        | arr xs0 =>
          rw [fixMembersF_arr] at h
          cases hj : fixJF g (.arr xs0) with
          | none => simp [hj] at h
          | some p =>
            obtain ⟨v2, ev1⟩ := p
            simp only [hj] at h
            cases hm : fixMembersF g rest with
            | none => simp [hm] at h
            | some q =>
              obtain ⟨rest2, ev2⟩ := q
              simp only [hm, Option.some.injEq, Prod.mk.injEq] at h
              obtain ⟨rfl, -⟩ := h
              simp only [Json.lookupKV, if_neg hkk]
              exact ih g rest2 ev2 k0 s hk0 hm hl
        | str s1 =>
          rw [fixMembersF_str] at h
          by_cases hk : k = cChainGenesisKey
          · rw [if_pos hk] at h
            cases hlo : loads s1 with
            | some e =>
              simp only [hlo] at h
              cases hj : fixJF g e with
              | none => simp [hj] at h
              | some p =>
                obtain ⟨e2, ev1⟩ := p
                simp only [hj] at h
                cases hm : fixMembersF g rest with
                | none => simp [hm] at h
                | some q =>
                  obtain ⟨rest2, ev2⟩ := q
                  simp only [hm, Option.some.injEq, Prod.mk.injEq] at h
                  obtain ⟨rfl, -⟩ := h
                  simp only [Json.lookupKV, if_neg hkk]
                  exact ih g rest2 ev2 k0 s hk0 hm hl
            | none =>
              simp only [hlo] at h
              cases hm : fixMembersF g rest with
              | none => simp [hm] at h
              | some q =>
                obtain ⟨rest2, ev2⟩ := q
                simp only [hm, Option.some.injEq, Prod.mk.injEq] at h
                obtain ⟨rfl, -⟩ := h
                simp only [Json.lookupKV, if_neg hkk]
                exact ih g rest2 ev2 k0 s hk0 hm hl
          · rw [if_neg hk] at h
            cases hm : fixMembersF g rest with
            | none => simp [hm] at h
            | some q =>
              obtain ⟨rest2, ev2⟩ := q
              simp only [hm, Option.some.injEq, Prod.mk.injEq] at h
              obtain ⟨rfl, -⟩ := h
              simp only [Json.lookupKV, if_neg hkk]
              exact ih g rest2 ev2 k0 s hk0 hm hl
        | null =>
          rw [fixMembersF_null] at h
          cases hm : fixMembersF g rest with
          | none => simp [hm] at h
          | some q =>
            obtain ⟨rest2, ev2⟩ := q
            simp only [hm, Option.some.injEq, Prod.mk.injEq] at h
            obtain ⟨rfl, -⟩ := h
            simp only [Json.lookupKV, if_neg hkk]
            exact ih g rest2 ev2 k0 s hk0 hm hl
        | bool b =>
          rw [fixMembersF_bool] at h
          cases hm : fixMembersF g rest with
          | none => simp [hm] at h
          | some q =>
            obtain ⟨rest2, ev2⟩ := q
            simp only [hm, Option.some.injEq, Prod.mk.injEq] at h
            obtain ⟨rfl, -⟩ := h
            simp only [Json.lookupKV, if_neg hkk]
            exact ih g rest2 ev2 k0 s hk0 hm hl
        | num n =>
          rw [fixMembersF_num] at h
          cases hm : fixMembersF g rest with
          | none => simp [hm] at h
          | some q =>
            obtain ⟨rest2, ev2⟩ := q
            simp only [hm, Option.some.injEq, Prod.mk.injEq] at h
            obtain ⟨rfl, -⟩ := h
            simp only [Json.lookupKV, if_neg hkk]
            exact ih g rest2 ev2 k0 s hk0 hm hl

theorem coinbase_ne_cchain : coinbaseKey ≠ cChainGenesisKey := by decide

/-- A coinbase string the fixer will not rewrite: no `0x` prefix, or a
payload that is not 64 characters long. -/
def stableCoinbase (s : Str) : Prop :=
  startsWith0x s = false ∨ (s.drop 2).length ≠ 64

/-- After the coinbase pass, the (first) coinbase entry is either absent
or holds a string the fixer will not rewrite again. -/
theorem fixCoinbaseEntry_stable_cond (kvs kvs1 : List (Str × Json))
    (ev : List FixEvent) (h : fixCoinbaseEntry kvs = some (kvs1, ev)) :
    Json.lookupKV kvs1 coinbaseKey = none ∨
    ∃ s, Json.lookupKV kvs1 coinbaseKey = some (.str s) ∧ stableCoinbase s := by
  rw [fixCoinbaseEntry] at h
  split at h
  · rename_i hl
    simp only [Option.some.injEq, Prod.mk.injEq] at h
    obtain ⟨rfl, -⟩ := h
    exact Or.inl hl
  · rename_i s hl
    split at h
    · rename_i h0x
      split at h
      · rename_i h64
        simp only [Option.some.injEq, Prod.mk.injEq] at h
        obtain ⟨rfl, -⟩ := h
        refine Or.inr ⟨'0' :: 'x' :: (s.drop 2).take 40, ?_, ?_⟩
        · exact Json.lookupKV_setKV_self kvs coinbaseKey _ (by simp [Json.hasKey, hl])
        · right
          simp only [List.drop_succ_cons, List.drop_zero, List.length_take]
          omega
      · rename_i h40
        split at h
        · simp only [Option.some.injEq, Prod.mk.injEq] at h
          obtain ⟨rfl, -⟩ := h
          exact Or.inr ⟨s, hl, Or.inr (by omega)⟩
        · rename_i hlen
          simp only [Option.some.injEq, Prod.mk.injEq] at h
          obtain ⟨rfl, -⟩ := h
          exact Or.inr ⟨s, hl, Or.inr (by omega)⟩
    · rename_i h0x
      simp only [Option.some.injEq, Prod.mk.injEq] at h
      obtain ⟨rfl, -⟩ := h
      exact Or.inr ⟨s, hl, Or.inl (by simpa using h0x)⟩
  · exact absurd h (by simp)

/-- A dict whose coinbase entry is absent or already stable passes the
coinbase fixer unchanged. -/
theorem fixCoinbaseEntry_of_stable (kvs : List (Str × Json))
    (h : Json.lookupKV kvs coinbaseKey = none ∨
      ∃ s, Json.lookupKV kvs coinbaseKey = some (.str s) ∧ stableCoinbase s) :
    ∃ ev, fixCoinbaseEntry kvs = some (kvs, ev) := by
  rcases h with hl | ⟨s, hl, hs⟩
  · exact ⟨[], by rw [fixCoinbaseEntry]; simp only [hl]⟩
  · rw [fixCoinbaseEntry]
    simp only [hl]
    rcases hs with h0x | h64
    · exact ⟨[], by rw [if_neg (by simp [h0x])]⟩
    · by_cases h0x : startsWith0x s
      · rw [if_pos h0x, if_neg h64]
        by_cases h40 : (s.drop 2).length = 40
        · exact ⟨[], by rw [if_neg (by simpa using h40)]⟩
        · exact ⟨[.warnLength (s.drop 2).length s], by rw [if_pos (by simpa using h40)]⟩
      · exact ⟨[], by rw [if_neg h0x]⟩

/-- The coinbase pass preserves well-formedness of the dict. -/
theorem fixCoinbaseEntry_wf (kvs kvs1 : List (Str × Json)) (ev : List FixEvent)
    (h : fixCoinbaseEntry kvs = some (kvs1, ev)) (hwf : Json.wfM kvs = true) :
    Json.wfM kvs1 = true := by
  rw [fixCoinbaseEntry] at h
  split at h
  · simp only [Option.some.injEq, Prod.mk.injEq] at h
    obtain ⟨rfl, -⟩ := h
    exact hwf
  · rename_i s hl
    split at h
    · split at h
      · simp only [Option.some.injEq, Prod.mk.injEq] at h
        obtain ⟨rfl, -⟩ := h
        exact Json.setKV_wf kvs coinbaseKey _ hwf (by rfl)
      · split at h <;>
          (simp only [Option.some.injEq, Prod.mk.injEq] at h;
           obtain ⟨rfl, -⟩ := h; exact hwf)
    · simp only [Option.some.injEq, Prod.mk.injEq] at h
      obtain ⟨rfl, -⟩ := h
      exact hwf
  · exact absurd h (by simp)

/-- The normalizer preserves well-formedness (distinct dict keys). -/
theorem fix_wf : ∀ fuel : Nat,
    (∀ x y ev, fixJF fuel x = some (y, ev) → Json.wfV x = true → Json.wfV y = true) ∧
    (∀ kvs kvs2 ev, fixMembersF fuel kvs = some (kvs2, ev) →
      Json.wfM kvs = true → Json.wfM kvs2 = true) ∧
    (∀ xs xs2 ev, fixElemsF fuel xs = some (xs2, ev) →
      Json.wfE xs = true → Json.wfE xs2 = true) := by
  intro fuel
  induction fuel with
  | zero =>
    refine ⟨?_, ?_, ?_⟩ <;> intro a b ev h _ <;>
      simp [fixJF, fixMembersF, fixElemsF] at h
  | succ fuel ih =>
    obtain ⟨ihV, ihM, ihE⟩ := ih
    refine ⟨?_, ?_, ?_⟩
    · intro x y ev h hwf
      cases x with
      | obj kvs =>
        rw [fixJF_obj] at h
        cases hce : fixCoinbaseEntry kvs with
        | none => simp [hce] at h
        | some p =>
          obtain ⟨kvs1, ev1⟩ := p
          simp only [hce] at h
          cases hm : fixMembersF fuel kvs1 with
          | none => simp [hm] at h
          | some q =>
            obtain ⟨kvs2, ev2⟩ := q
            simp only [hm, Option.some.injEq, Prod.mk.injEq] at h
            obtain ⟨rfl, -⟩ := h
            have h1 : Json.wfM kvs1 = true :=
              fixCoinbaseEntry_wf kvs kvs1 ev1 hce (by simpa [Json.wfV] using hwf)
            simpa [Json.wfV] using ihM kvs1 kvs2 ev2 hm h1
      | arr xs =>
        rw [fixJF_arr] at h
        cases he : fixElemsF fuel xs with
        | none => simp [he] at h
        | some q =>
          obtain ⟨xs2, ev2⟩ := q
          simp only [he, Option.some.injEq, Prod.mk.injEq] at h
          obtain ⟨rfl, -⟩ := h
          simpa [Json.wfV] using ihE xs xs2 ev2 he (by simpa [Json.wfV] using hwf)
      | null =>
        rw [fixJF_null] at h
        simp only [Option.some.injEq, Prod.mk.injEq] at h
        obtain ⟨rfl, -⟩ := h; exact hwf
      | bool b =>
        rw [fixJF_bool] at h
        simp only [Option.some.injEq, Prod.mk.injEq] at h
        obtain ⟨rfl, -⟩ := h; exact hwf
      | num n =>
        rw [fixJF_num] at h
        simp only [Option.some.injEq, Prod.mk.injEq] at h
        obtain ⟨rfl, -⟩ := h; exact hwf
      | str s =>
        rw [fixJF_str] at h
        simp only [Option.some.injEq, Prod.mk.injEq] at h
        obtain ⟨rfl, -⟩ := h; exact hwf
    · intro kvs kvs2 ev h hwf
      cases kvs with
      | nil =>
        rw [fixMembersF_nil] at h
        simp only [Option.some.injEq, Prod.mk.injEq] at h
        obtain ⟨rfl, -⟩ := h; exact hwf
      | cons hd rest =>
        obtain ⟨k, v⟩ := hd
        simp only [Json.wfM, Bool.and_eq_true, Bool.not_eq_true'] at hwf
        obtain ⟨⟨hk, hv⟩, hrest⟩ := hwf
        have step : ∀ v2 rest2 ev2, fixMembersF fuel rest = some (rest2, ev2) →
            Json.wfV v2 = true → Json.wfM ((k, v2) :: rest2) = true := by
          intro v2 rest2 ev2 hm hv2
          simp only [Json.wfM, Bool.and_eq_true, Bool.not_eq_true']
          refine ⟨⟨?_, hv2⟩, ihM rest rest2 ev2 hm hrest⟩
          rw [hasKey_of_keys_eq rest2 rest k (fixMembers_keys rest fuel rest2 ev2 hm)]
          exact hk
        cases v with
        | obj kvs0 =>
          rw [fixMembersF_obj] at h
          cases hj : fixJF fuel (.obj kvs0) with
          | none => simp [hj] at h
          | some p =>
            obtain ⟨v2, ev1⟩ := p
            simp only [hj] at h
            cases hm : fixMembersF fuel rest with
            | none => simp [hm] at h
            | some q =>
              obtain ⟨rest2, ev2⟩ := q
              simp only [hm, Option.some.injEq, Prod.mk.injEq] at h
              obtain ⟨rfl, -⟩ := h
              exact step v2 rest2 ev2 hm (ihV _ v2 ev1 hj hv)
        | arr xs0 =>
          rw [fixMembersF_arr] at h
          cases hj : fixJF fuel (.arr xs0) with
          | none => simp [hj] at h
          | some p =>
            obtain ⟨v2, ev1⟩ := p
            simp only [hj] at h
            cases hm : fixMembersF fuel rest with
            | none => simp [hm] at h
            | some q =>
              obtain ⟨rest2, ev2⟩ := q
              simp only [hm, Option.some.injEq, Prod.mk.injEq] at h
              obtain ⟨rfl, -⟩ := h
              exact step v2 rest2 ev2 hm (ihV _ v2 ev1 hj hv)
        | str s =>
          rw [fixMembersF_str] at h
          by_cases hkc : k = cChainGenesisKey
          · rw [if_pos hkc] at h
            cases hl : loads s with
            | some e =>
              simp only [hl] at h
              cases hj : fixJF fuel e with
              | none => simp [hj] at h
              | some p =>
                obtain ⟨e2, ev1⟩ := p
                simp only [hj] at h
                cases hm : fixMembersF fuel rest with
                | none => simp [hm] at h
                | some q =>
                  obtain ⟨rest2, ev2⟩ := q
                  simp only [hm, Option.some.injEq, Prod.mk.injEq] at h
                  obtain ⟨rfl, -⟩ := h
                  exact step _ rest2 ev2 hm (by rfl)
            | none =>
              simp only [hl] at h
              cases hm : fixMembersF fuel rest with
              | none => simp [hm] at h
              | some q =>
                obtain ⟨rest2, ev2⟩ := q
                simp only [hm, Option.some.injEq, Prod.mk.injEq] at h
                obtain ⟨rfl, -⟩ := h
                exact step _ rest2 ev2 hm (by rfl)
          · rw [if_neg hkc] at h
            cases hm : fixMembersF fuel rest with
            | none => simp [hm] at h
            | some q =>
              obtain ⟨rest2, ev2⟩ := q
              simp only [hm, Option.some.injEq, Prod.mk.injEq] at h
              obtain ⟨rfl, -⟩ := h
              exact step _ rest2 ev2 hm (by rfl)
        | null =>
          rw [fixMembersF_null] at h
          cases hm : fixMembersF fuel rest with
          | none => simp [hm] at h
          | some q =>
            obtain ⟨rest2, ev2⟩ := q
            simp only [hm, Option.some.injEq, Prod.mk.injEq] at h
            obtain ⟨rfl, -⟩ := h
            exact step _ rest2 ev2 hm (by rfl)
        | bool b =>
          rw [fixMembersF_bool] at h
          cases hm : fixMembersF fuel rest with
          | none => simp [hm] at h
          | some q =>
            obtain ⟨rest2, ev2⟩ := q
            simp only [hm, Option.some.injEq, Prod.mk.injEq] at h
            obtain ⟨rfl, -⟩ := h
            exact step _ rest2 ev2 hm (by rfl)
        | num n =>
          rw [fixMembersF_num] at h
          cases hm : fixMembersF fuel rest with
          | none => simp [hm] at h
          | some q =>
            obtain ⟨rest2, ev2⟩ := q
            simp only [hm, Option.some.injEq, Prod.mk.injEq] at h
            obtain ⟨rfl, -⟩ := h
            exact step _ rest2 ev2 hm (by rfl)
    · intro xs xs2 ev h hwf
      cases xs with
      | nil =>
        rw [fixElemsF_nil] at h
        simp only [Option.some.injEq, Prod.mk.injEq] at h
        obtain ⟨rfl, -⟩ := h; exact hwf
      | cons x rest =>
        simp only [Json.wfE, Bool.and_eq_true] at hwf
        obtain ⟨hx, hrest⟩ := hwf
        rw [fixElemsF_cons] at h
        cases hj : fixJF fuel x with
        | none => simp [hj] at h
        | some p =>
          obtain ⟨x2, ev1⟩ := p
          simp only [hj] at h
          cases he : fixElemsF fuel rest with
          | none => simp [he] at h
          | some q =>
            obtain ⟨rest2, ev2⟩ := q
            simp only [he, Option.some.injEq, Prod.mk.injEq] at h
            obtain ⟨rfl, -⟩ := h
            simp only [Json.wfE, Bool.and_eq_true]
            exact ⟨ihV x x2 ev1 hj hx, ihE rest rest2 ev2 he hrest⟩

/-- Fixing a dict yields a dict. -/
theorem fixJF_obj_shape (fuel : Nat) (kvs : List (Str × Json)) (y : Json)
    (ev : List FixEvent) (h : fixJF fuel (.obj kvs) = some (y, ev)) :
    ∃ kvs2, y = .obj kvs2 := by
  cases fuel with
  | zero => simp [fixJF] at h
  | succ g =>
    rw [fixJF_obj] at h
    cases hce : fixCoinbaseEntry kvs with
    | none => simp [hce] at h
    | some p =>
      obtain ⟨kvs1, ev1⟩ := p
      simp only [hce] at h
      cases hm : fixMembersF g kvs1 with
      | none => simp [hm] at h
      | some q =>
        obtain ⟨kvs2, ev2⟩ := q
        simp only [hm, Option.some.injEq, Prod.mk.injEq] at h
        exact ⟨kvs2, h.1.symm⟩

/-- Fixing a list yields a list. -/
theorem fixJF_arr_shape (fuel : Nat) (xs : List Json) (y : Json)
    (ev : List FixEvent) (h : fixJF fuel (.arr xs) = some (y, ev)) :
    ∃ xs2, y = .arr xs2 := by
  cases fuel with
  | zero => simp [fixJF] at h
  | succ g =>
    rw [fixJF_arr] at h
    cases he : fixElemsF g xs with
    | none => simp [he] at h
    | some q =>
      obtain ⟨xs2, ev2⟩ := q
      simp only [he, Option.some.injEq, Prod.mk.injEq] at h
      exact ⟨xs2, h.1.symm⟩

/-- Stability: a document the normalizer has produced is a fixed point —
running the normalizer on it again (with enough fuel) returns it
unchanged. -/
theorem fix_stab : ∀ fuel : Nat,
    (∀ x y ev, fixJF fuel x = some (y, ev) →
      ∀ g, Json.sizeJ y < g → ∃ ev2, fixJF g y = some (y, ev2)) ∧
    (∀ kvs kvs2 ev, fixMembersF fuel kvs = some (kvs2, ev) →
      ∀ g, Json.sizeM kvs2 < g → ∃ ev2, fixMembersF g kvs2 = some (kvs2, ev2)) ∧
    (∀ xs xs2 ev, fixElemsF fuel xs = some (xs2, ev) →
      ∀ g, Json.sizeE xs2 < g → ∃ ev2, fixElemsF g xs2 = some (xs2, ev2)) := by
  intro fuel
  induction fuel with
  | zero =>
    refine ⟨?_, ?_, ?_⟩ <;> intro a b ev h <;>
      simp [fixJF, fixMembersF, fixElemsF] at h
  | succ fuel ih =>
    obtain ⟨ihV, ihM, ihE⟩ := ih
    refine ⟨?_, ?_, ?_⟩
    · intro x y ev h g hg
      obtain ⟨g', rfl⟩ : ∃ g', g = g' + 1 := ⟨g - 1, by omega⟩
      cases x with
      | obj kvs =>
        rw [fixJF_obj] at h
        cases hce : fixCoinbaseEntry kvs with
        | none => simp [hce] at h
        | some p =>
          obtain ⟨kvs1, ev1⟩ := p
          simp only [hce] at h
          cases hm : fixMembersF fuel kvs1 with
          | none => simp [hm] at h
          | some q =>
            obtain ⟨kvs2, ev2⟩ := q
            simp only [hm, Option.some.injEq, Prod.mk.injEq] at h
            obtain ⟨rfl, -⟩ := h
            simp only [Json.sizeJ] at hg
            have hkeys := fixMembers_keys kvs1 fuel kvs2 ev2 hm
            have hcond : Json.lookupKV kvs2 coinbaseKey = none ∨
                ∃ s, Json.lookupKV kvs2 coinbaseKey = some (.str s) ∧
                  stableCoinbase s := by
              rcases fixCoinbaseEntry_stable_cond kvs kvs1 ev1 hce with hn | ⟨s, hl, hs⟩
              · left
                rw [lookupKV_eq_none_iff] at hn ⊢
                rw [hasKey_of_keys_eq kvs2 kvs1 coinbaseKey hkeys]
                exact hn
              · exact Or.inr ⟨s,
                  fixMembers_lookup_str kvs1 fuel kvs2 ev2 coinbaseKey s
                    coinbase_ne_cchain hm hl, hs⟩
            obtain ⟨ev', hee⟩ := fixCoinbaseEntry_of_stable kvs2 hcond
            obtain ⟨ev2', hmm2⟩ := ihM kvs1 kvs2 ev2 hm g' (by omega)
            rw [fixJF_obj]
            simp only [hee, hmm2]
            exact ⟨ev' ++ ev2', rfl⟩
      | arr xs =>
        rw [fixJF_arr] at h
        cases he : fixElemsF fuel xs with
        | none => simp [he] at h
        | some q =>
          obtain ⟨xs2, ev2⟩ := q
          simp only [he, Option.some.injEq, Prod.mk.injEq] at h
          obtain ⟨rfl, -⟩ := h
          simp only [Json.sizeJ] at hg
          obtain ⟨ev2', he2⟩ := ihE xs xs2 ev2 he g' (by omega)
          rw [fixJF_arr]
          simp only [he2]
          exact ⟨ev2', rfl⟩
      | null =>
        rw [fixJF_null] at h
        simp only [Option.some.injEq, Prod.mk.injEq] at h
        obtain ⟨rfl, -⟩ := h
        exact ⟨[], fixJF_null g'⟩
      | bool b =>
        rw [fixJF_bool] at h
        simp only [Option.some.injEq, Prod.mk.injEq] at h
        obtain ⟨rfl, -⟩ := h
        exact ⟨[], fixJF_bool g' b⟩
      | num n =>
        rw [fixJF_num] at h
        simp only [Option.some.injEq, Prod.mk.injEq] at h
        obtain ⟨rfl, -⟩ := h
        exact ⟨[], fixJF_num g' n⟩
      | str s =>
        rw [fixJF_str] at h
        simp only [Option.some.injEq, Prod.mk.injEq] at h
        obtain ⟨rfl, -⟩ := h
        exact ⟨[], fixJF_str g' s⟩
    · intro kvs kvs2 ev h g hg
      obtain ⟨g', rfl⟩ : ∃ g', g = g' + 1 := ⟨g - 1, by omega⟩
      cases kvs with
      | nil =>
        rw [fixMembersF_nil] at h
        simp only [Option.some.injEq, Prod.mk.injEq] at h
        obtain ⟨rfl, -⟩ := h
        exact ⟨[], fixMembersF_nil g'⟩
      | cons hd rest =>
        obtain ⟨k, v⟩ := hd
        cases v with
        | obj kvs0 =>
          rw [fixMembersF_obj] at h
          cases hj : fixJF fuel (.obj kvs0) with
          | none => simp [hj] at h
          | some p =>
            obtain ⟨v2, ev1⟩ := p
            simp only [hj] at h
            cases hm : fixMembersF fuel rest with
            | none => simp [hm] at h
            | some q =>
              obtain ⟨rest2, ev2⟩ := q
              simp only [hm, Option.some.injEq, Prod.mk.injEq] at h
              obtain ⟨rfl, -⟩ := h
              obtain ⟨kvs2', rfl⟩ := fixJF_obj_shape fuel kvs0 v2 ev1 hj
              simp only [Json.sizeM] at hg
              obtain ⟨ev1', h1⟩ := ihV _ _ _ hj g' (by omega)
              obtain ⟨ev2', h2⟩ := ihM rest rest2 ev2 hm g' (by omega)
              rw [fixMembersF_obj]
              simp only [h1, h2]
              exact ⟨ev1' ++ ev2', rfl⟩
        | arr xs0 =>
          rw [fixMembersF_arr] at h
          cases hj : fixJF fuel (.arr xs0) with
          | none => simp [hj] at h
          | some p =>
            obtain ⟨v2, ev1⟩ := p
            simp only [hj] at h
            cases hm : fixMembersF fuel rest with
            | none => simp [hm] at h
            | some q =>
              obtain ⟨rest2, ev2⟩ := q
              simp only [hm, Option.some.injEq, Prod.mk.injEq] at h
              obtain ⟨rfl, -⟩ := h
              obtain ⟨xs2', rfl⟩ := fixJF_arr_shape fuel xs0 v2 ev1 hj
              simp only [Json.sizeM] at hg
              obtain ⟨ev1', h1⟩ := ihV _ _ _ hj g' (by omega)
              obtain ⟨ev2', h2⟩ := ihM rest rest2 ev2 hm g' (by omega)
              rw [fixMembersF_arr]
              simp only [h1, h2]
              exact ⟨ev1' ++ ev2', rfl⟩
        | str s =>
          rw [fixMembersF_str] at h
          by_cases hkc : k = cChainGenesisKey
          · rw [if_pos hkc] at h
            cases hl : loads s with
            | some e =>
              simp only [hl] at h
              cases hj : fixJF fuel e with
              | none => simp [hj] at h
              | some p =>
                obtain ⟨e2, ev1⟩ := p
                simp only [hj] at h
                cases hm : fixMembersF fuel rest with
                | none => simp [hm] at h
                | some q =>
                  obtain ⟨rest2, ev2⟩ := q
                  simp only [hm, Option.some.injEq, Prod.mk.injEq] at h
                  obtain ⟨rfl, -⟩ := h
                  have hwe2 : Json.wfV e2 = true :=
                    (fix_wf fuel).1 e e2 ev1 hj (loads_wf s e hl)
                  have hld : loads (dumps e2) = some e2 := loads_dumps e2 hwe2
                  have hsz : Json.sizeJ e2 ≤ (dumps e2).length :=
                    loads_size (dumps e2) e2 hld
                  simp only [Json.sizeM, Json.sizeJ] at hg
                  obtain ⟨ev1', h1⟩ := ihV e e2 ev1 hj g' (by omega)
                  obtain ⟨ev2', h2⟩ := ihM rest rest2 ev2 hm g' (by omega)
                  rw [fixMembersF_str, if_pos hkc]
                  simp only [hld, h1, h2]
                  exact ⟨ev1' ++ ev2', rfl⟩
            | none =>
              simp only [hl] at h
              cases hm : fixMembersF fuel rest with
              | none => simp [hm] at h
              | some q =>
                obtain ⟨rest2, ev2⟩ := q
                simp only [hm, Option.some.injEq, Prod.mk.injEq] at h
                obtain ⟨rfl, -⟩ := h
                simp only [Json.sizeM] at hg
                obtain ⟨ev2', h2⟩ := ihM rest rest2 ev2 hm g' (by omega)
                rw [fixMembersF_str, if_pos hkc]
                simp only [hl, h2]
                exact ⟨ev2', rfl⟩
          · rw [if_neg hkc] at h
            cases hm : fixMembersF fuel rest with
            | none => simp [hm] at h
            | some q =>
              obtain ⟨rest2, ev2⟩ := q
              simp only [hm, Option.some.injEq, Prod.mk.injEq] at h
              obtain ⟨rfl, -⟩ := h
              simp only [Json.sizeM] at hg
              obtain ⟨ev2', h2⟩ := ihM rest rest2 ev2 hm g' (by omega)
              rw [fixMembersF_str, if_neg hkc]
              simp only [h2]
              exact ⟨ev2', rfl⟩
        | null =>
          rw [fixMembersF_null] at h
          cases hm : fixMembersF fuel rest with
          | none => simp [hm] at h
          | some q =>
            obtain ⟨rest2, ev2⟩ := q
            simp only [hm, Option.some.injEq, Prod.mk.injEq] at h
            obtain ⟨rfl, -⟩ := h
            simp only [Json.sizeM] at hg
            obtain ⟨ev2', h2⟩ := ihM rest rest2 ev2 hm g' (by omega)
            rw [fixMembersF_null]
            simp only [h2]
            exact ⟨ev2', rfl⟩
        | bool b =>
          rw [fixMembersF_bool] at h
          cases hm : fixMembersF fuel rest with
          | none => simp [hm] at h
          | some q =>
            obtain ⟨rest2, ev2⟩ := q
            simp only [hm, Option.some.injEq, Prod.mk.injEq] at h
            obtain ⟨rfl, -⟩ := h
            simp only [Json.sizeM] at hg
            obtain ⟨ev2', h2⟩ := ihM rest rest2 ev2 hm g' (by omega)
            rw [fixMembersF_bool]
            simp only [h2]
            exact ⟨ev2', rfl⟩
        | num n =>
          rw [fixMembersF_num] at h
          cases hm : fixMembersF fuel rest with
          | none => simp [hm] at h
          | some q =>
            obtain ⟨rest2, ev2⟩ := q
            simp only [hm, Option.some.injEq, Prod.mk.injEq] at h
            obtain ⟨rfl, -⟩ := h
            simp only [Json.sizeM] at hg
            obtain ⟨ev2', h2⟩ := ihM rest rest2 ev2 hm g' (by omega)
            rw [fixMembersF_num]
            simp only [h2]
            exact ⟨ev2', rfl⟩
    · intro xs xs2 ev h g hg
      obtain ⟨g', rfl⟩ : ∃ g', g = g' + 1 := ⟨g - 1, by omega⟩
      cases xs with
      | nil =>
        rw [fixElemsF_nil] at h
        simp only [Option.some.injEq, Prod.mk.injEq] at h
        obtain ⟨rfl, -⟩ := h
        exact ⟨[], fixElemsF_nil g'⟩
      | cons x rest =>
        rw [fixElemsF_cons] at h
        cases hj : fixJF fuel x with
        | none => simp [hj] at h
        | some p =>
          obtain ⟨x2, ev1⟩ := p
          simp only [hj] at h
          cases he : fixElemsF fuel rest with
          | none => simp [he] at h
          | some q =>
            obtain ⟨rest2, ev2⟩ := q
            simp only [he, Option.some.injEq, Prod.mk.injEq] at h
            obtain ⟨rfl, -⟩ := h
            simp only [Json.sizeE] at hg
            obtain ⟨ev1', h1⟩ := ihV x x2 ev1 hj g' (by omega)
            obtain ⟨ev2', h2⟩ := ihE rest rest2 ev2 he g' (by omega)
            rw [fixElemsF_cons]
            simp only [h1, h2]
            exact ⟨ev1' ++ ev2', rfl⟩

/-- C1: for every genesis JSON document `G`, applying the coinbase
normalizer twice yields the same result as applying it once —
`normalize (normalize G) = normalize G`, with the partiality of the
Python function (uncaught exceptions) carried through `Option.bind`. -/
theorem C1_normalize_idempotent (G : Json) :
    (normalizeJson G).bind normalizeJson = normalizeJson G := by
  rw [normalizeJson, fixCoinbaseInJson]
  cases hf : fixJF (Json.sizeJ G + 1) G with
  | none => rfl
  | some p =>
    obtain ⟨y, ev⟩ := p
    obtain ⟨ev2, h2⟩ :=
      (fix_stab (Json.sizeJ G + 1)).1 G y ev hf (Json.sizeJ y + 1) (by omega)
    simp [normalizeJson, fixCoinbaseInJson, h2]

/-- Writing a dict key's looked-up value back is the identity. -/
theorem setKV_self : ∀ (l : List (Str × Json)) (k : Str) (v : Json),
    Json.lookupKV l k = some v → Json.setKV l k v = l := by
  intro l
  induction l with
  | nil => intro k v h; rfl
  | cons hd rest ih =>
    intro k v h
    obtain ⟨k0, v0⟩ := hd
    by_cases hk : k0 = k
    · simp only [Json.lookupKV, if_pos hk, Option.some.injEq] at h
      subst h
      simp [Json.setKV, hk]
    · simp only [Json.lookupKV, if_neg hk] at h
      simp [Json.setKV, hk, ih k v h]

/-- C2: for a `0x`-prefixed coinbase value, a 64-character hex payload is
truncated to its first 40 characters with exactly one correction event
recorded; a 40-character payload is left unchanged with no event; any
other payload length is left unchanged with exactly one warning event —
and this per-value transform is exactly what the normalizer's coinbase
pass applies to the `coinbase` entry of every dict it visits. -/
theorem C2_coinbase_value_cases (s : Str) (h0x : startsWith0x s = true) :
    ((s.drop 2).length = 64 →
      fixCoinbaseValue s =
        ('0' :: 'x' :: (s.drop 2).take 40,
         [.fixedCoinbase s ('0' :: 'x' :: (s.drop 2).take 40)])) ∧
    ((s.drop 2).length = 40 → fixCoinbaseValue s = (s, [])) ∧
    ((s.drop 2).length ≠ 64 → (s.drop 2).length ≠ 40 →
      fixCoinbaseValue s = (s, [.warnLength (s.drop 2).length s])) ∧
    (∀ kvs, Json.lookupKV kvs coinbaseKey = some (.str s) →
      fixCoinbaseEntry kvs =
        some (Json.setKV kvs coinbaseKey (.str (fixCoinbaseValue s).1),
              (fixCoinbaseValue s).2)) := by
  refine ⟨?_, ?_, ?_, ?_⟩
  · intro h64
    rw [fixCoinbaseValue, if_pos h0x, if_pos h64]
  · intro h40
    rw [fixCoinbaseValue, if_pos h0x, if_neg (by omega), if_neg (by omega)]
  · intro h64 h40
    rw [fixCoinbaseValue, if_pos h0x, if_neg h64, if_pos h40]
  · intro kvs hl
    rw [fixCoinbaseEntry]
    simp only [hl]
    rw [if_pos h0x]
    by_cases h64 : (s.drop 2).length = 64
    · rw [if_pos h64, fixCoinbaseValue, if_pos h0x, if_pos h64]
    · rw [if_neg h64]
      by_cases h40 : (s.drop 2).length = 40
      · rw [if_neg (by omega), fixCoinbaseValue, if_pos h0x, if_neg (by omega),
          if_neg (by omega), setKV_self kvs coinbaseKey (.str s) hl]
      · rw [if_pos (by omega), fixCoinbaseValue, if_pos h0x, if_neg h64,
          if_pos (by omega), setKV_self kvs coinbaseKey (.str s) hl]

/-- Witness for C2 at three concrete coinbase values: a 64-character
payload, a 40-character payload, and a 3-character payload. -/
theorem C2_coinbase_value_cases_witness :
    fixCoinbaseValue
        "0x1111111111111111111111111111111111111111111111111111111111111111".toList =
      ("0x1111111111111111111111111111111111111111".toList,
       [.fixedCoinbase
          "0x1111111111111111111111111111111111111111111111111111111111111111".toList
          "0x1111111111111111111111111111111111111111".toList]) ∧
    fixCoinbaseValue "0x1111111111111111111111111111111111111111".toList =
      ("0x1111111111111111111111111111111111111111".toList, []) ∧
    fixCoinbaseValue "0x123".toList =
      ("0x123".toList, [.warnLength 3 "0x123".toList]) ∧
    fixCoinbaseEntry
        [("coinbase".toList,
          .str "0x1111111111111111111111111111111111111111111111111111111111111111".toList)] =
      some ([("coinbase".toList,
              .str "0x1111111111111111111111111111111111111111".toList)],
            [.fixedCoinbase
               "0x1111111111111111111111111111111111111111111111111111111111111111".toList
               "0x1111111111111111111111111111111111111111".toList]) := by
  refine ⟨?_, ?_, ?_, ?_⟩
  · exact (C2_coinbase_value_cases
      "0x1111111111111111111111111111111111111111111111111111111111111111".toList
      (by rfl)).1 (by rfl)
  · exact (C2_coinbase_value_cases
      "0x1111111111111111111111111111111111111111".toList (by rfl)).2.1 (by rfl)
  · exact (C2_coinbase_value_cases "0x123".toList (by rfl)).2.2.1
      (by decide) (by decide)
  · exact (C2_coinbase_value_cases
      "0x1111111111111111111111111111111111111111111111111111111111111111".toList
      (by rfl)).2.2.2
      [("coinbase".toList,
        .str "0x1111111111111111111111111111111111111111111111111111111111111111".toList)]
      (by rfl)

mutual
/-- The frame of one normalizer pass: `frameV x y` holds when `y` differs
from `x` at most in (a) string values stored under the key `coinbase`,
rewritten exactly as `fixCoinbaseValue` rewrites them, and (b) string
values stored under the key `cChainGenesis`; every other key-value pair,
every dict's key list, and every list's length and element order agree. -/
def frameV : Json → Json → Bool
  | .obj kvs, .obj kvs2 => frameM kvs kvs2
  | .arr xs, .arr xs2 => frameE xs xs2
  | .null, .null => true
  | .bool a, .bool b => decide (a = b)
  | .num a, .num b => decide (a = b)
  | .str a, .str b => decide (a = b)
  | _, _ => false
def frameM : List (Str × Json) → List (Str × Json) → Bool
  | [], [] => true
  | (k, v) :: r, (k2, v2) :: r2 =>
    decide (k2 = k) &&
    (match v, v2 with
     | .str s, .str s2 =>
       decide (s2 = s) ||
       (decide (k = coinbaseKey) && decide (s2 = (fixCoinbaseValue s).1)) ||
       decide (k = cChainGenesisKey)
     | v, v2 => frameV v v2) &&
    frameM r r2
  | _, _ => false
def frameE : List Json → List Json → Bool
  | [], [] => true
  | x :: r, x2 :: r2 => frameV x x2 && frameE r r2
  | _, _ => false
end

theorem frameV_obj (kvs kvs2 : List (Str × Json)) :
    frameV (.obj kvs) (.obj kvs2) = frameM kvs kvs2 := rfl

theorem frameV_arr (xs xs2 : List Json) :
    frameV (.arr xs) (.arr xs2) = frameE xs xs2 := rfl

/-- The per-entry frame: what one dict value may become under its key. -/
def frameEnt (k : Str) (v v2 : Json) : Bool :=
  match v, v2 with
  | .str s, .str s2 =>
    decide (s2 = s) ||
    (decide (k = coinbaseKey) && decide (s2 = (fixCoinbaseValue s).1)) ||
    decide (k = cChainGenesisKey)
  | v, v2 => frameV v v2

theorem frameM_cons (k : Str) (v : Json) (r : List (Str × Json)) (k2 : Str)
    (v2 : Json) (r2 : List (Str × Json)) :
    frameM ((k, v) :: r) ((k2, v2) :: r2) =
      (decide (k2 = k) && frameEnt k v v2 && frameM r r2) := by
  cases v <;> cases v2 <;> rfl

theorem frameE_cons (x : Json) (r : List Json) (x2 : Json) (r2 : List Json) :
    frameE (x :: r) (x2 :: r2) = (frameV x x2 && frameE r r2) := rfl

/-- Replacing the first `coinbase` entry's string by its fixed form is
absorbed by the frame: whatever is in frame with the updated dict is in
frame with the original dict. -/
theorem frame_absorb_setKV : ∀ (kvs kvs2 : List (Str × Json)) (s new : Str),
    Json.lookupKV kvs coinbaseKey = some (.str s) →
    new = (fixCoinbaseValue s).1 →
    (fixCoinbaseValue new).1 = new →
    frameM (Json.setKV kvs coinbaseKey (.str new)) kvs2 = true →
    frameM kvs kvs2 = true := by
  intro kvs
  induction kvs with
  | nil => intro kvs2 s new hl _ _ _; simp [Json.lookupKV] at hl
  | cons hd rest ih =>
    intro kvs2 s new hl hnew hstab hfm
    obtain ⟨k0, v0⟩ := hd
    by_cases hk : k0 = coinbaseKey
    · simp only [Json.setKV, if_pos hk] at hfm
      simp only [Json.lookupKV, if_pos hk, Option.some.injEq] at hl
      subst hl
      cases kvs2 with
      | nil => simp [frameM] at hfm
      | cons q r2 =>
        obtain ⟨k2, v2⟩ := q
        rw [frameM_cons] at hfm ⊢
        simp only [Bool.and_eq_true] at hfm
        obtain ⟨⟨hk2, hent⟩, htail⟩ := hfm
        simp only [Bool.and_eq_true]
        refine ⟨⟨hk2, ?_⟩, htail⟩
        cases v2 with
        | str s2 =>
          simp only [frameEnt, Bool.or_eq_true, Bool.and_eq_true,
            decide_eq_true_eq] at hent ⊢
          rcases hent with (h1 | ⟨-, h2⟩) | h3
          · exact Or.inl (Or.inr ⟨hk, h1.trans hnew⟩)
          · exact Or.inl (Or.inr ⟨hk, (h2.trans hstab).trans hnew⟩)
          · exact Or.inr h3
        | null => simp [frameEnt, frameV] at hent
        | bool b => simp [frameEnt, frameV] at hent
        | num n => simp [frameEnt, frameV] at hent
        | arr xs => simp [frameEnt, frameV] at hent
        | obj kvs0 => simp [frameEnt, frameV] at hent
    · simp only [Json.setKV, if_neg hk] at hfm
      simp only [Json.lookupKV, if_neg hk] at hl
      cases kvs2 with
      | nil => simp [frameM] at hfm
      | cons q r2 =>
        obtain ⟨k2, v2⟩ := q
        rw [frameM_cons] at hfm ⊢
        simp only [Bool.and_eq_true] at hfm ⊢
        obtain ⟨⟨hk2, hent⟩, htail⟩ := hfm
        exact ⟨⟨hk2, hent⟩, ih r2 s new hl hnew hstab htail⟩

/-- The coinbase pass is absorbed by the frame. -/
theorem fixCoinbaseEntry_frame_absorb (kvs kvs1 : List (Str × Json))
    (ev : List FixEvent) (h : fixCoinbaseEntry kvs = some (kvs1, ev))
    (kvs2 : List (Str × Json)) (hfm : frameM kvs1 kvs2 = true) :
    frameM kvs kvs2 = true := by
  rw [fixCoinbaseEntry] at h
  split at h
  · simp only [Option.some.injEq, Prod.mk.injEq] at h
    obtain ⟨rfl, -⟩ := h
    exact hfm
  · rename_i s hl
    split at h
    · rename_i h0x
      split at h
      · rename_i h64
        simp only [Option.some.injEq, Prod.mk.injEq] at h
        obtain ⟨rfl, -⟩ := h
        have hnew : ('0' :: 'x' :: (s.drop 2).take 40) = (fixCoinbaseValue s).1 := by
          rw [fixCoinbaseValue, if_pos h0x, if_pos h64]
        have hlen : (('0' :: 'x' :: (s.drop 2).take 40).drop 2).length = 40 := by
          simp only [List.drop_succ_cons, List.drop_zero, List.length_take]
          omega
        have hstab : (fixCoinbaseValue ('0' :: 'x' :: (s.drop 2).take 40)).1 =
            ('0' :: 'x' :: (s.drop 2).take 40) := by
          rw [fixCoinbaseValue, if_pos (by rfl), if_neg (by rw [hlen]; omega),
            if_neg (by rw [hlen]; omega)]
        exact frame_absorb_setKV kvs kvs2 s _ hl hnew hstab hfm
      · split at h <;>
          (simp only [Option.some.injEq, Prod.mk.injEq] at h;
           obtain ⟨rfl, -⟩ := h; exact hfm)
    · simp only [Option.some.injEq, Prod.mk.injEq] at h
      obtain ⟨rfl, -⟩ := h
      exact hfm
  · exact absurd h (by simp)

/-- One normalizer pass stays inside the frame. -/
theorem fix_frame : ∀ fuel : Nat,
    (∀ x y ev, fixJF fuel x = some (y, ev) → frameV x y = true) ∧
    (∀ kvs kvs2 ev, fixMembersF fuel kvs = some (kvs2, ev) →
      frameM kvs kvs2 = true) ∧
    (∀ xs xs2 ev, fixElemsF fuel xs = some (xs2, ev) → frameE xs xs2 = true) := by
  intro fuel
  induction fuel with
  | zero =>
    refine ⟨?_, ?_, ?_⟩ <;> intro a b ev h <;>
      simp [fixJF, fixMembersF, fixElemsF] at h
  | succ fuel ih =>
    obtain ⟨ihV, ihM, ihE⟩ := ih
    refine ⟨?_, ?_, ?_⟩
    · intro x y ev h
      cases x with
      | obj kvs =>
        rw [fixJF_obj] at h
        cases hce : fixCoinbaseEntry kvs with
        | none => simp [hce] at h
        | some p =>
          obtain ⟨kvs1, ev1⟩ := p
          simp only [hce] at h
          cases hm : fixMembersF fuel kvs1 with
          | none => simp [hm] at h
          | some q =>
            obtain ⟨kvs2, ev2⟩ := q
            simp only [hm, Option.some.injEq, Prod.mk.injEq] at h
            obtain ⟨rfl, -⟩ := h
            rw [frameV_obj]
            exact fixCoinbaseEntry_frame_absorb kvs kvs1 ev1 hce kvs2
              (ihM kvs1 kvs2 ev2 hm)
      | arr xs =>
        rw [fixJF_arr] at h
        cases he : fixElemsF fuel xs with
        | none => simp [he] at h
        | some q =>
          obtain ⟨xs2, ev2⟩ := q
          simp only [he, Option.some.injEq, Prod.mk.injEq] at h
          obtain ⟨rfl, -⟩ := h
          rw [frameV_arr]
          exact ihE xs xs2 ev2 he
      | null =>
        rw [fixJF_null] at h
        simp only [Option.some.injEq, Prod.mk.injEq] at h
        obtain ⟨rfl, -⟩ := h
        rfl
      | bool b =>
        rw [fixJF_bool] at h
        simp only [Option.some.injEq, Prod.mk.injEq] at h
        obtain ⟨rfl, -⟩ := h
        simp [frameV]
      | num n =>
        rw [fixJF_num] at h
        simp only [Option.some.injEq, Prod.mk.injEq] at h
        obtain ⟨rfl, -⟩ := h
        simp [frameV]
      | str s =>
        rw [fixJF_str] at h
        simp only [Option.some.injEq, Prod.mk.injEq] at h
        obtain ⟨rfl, -⟩ := h
        simp [frameV]
    · intro kvs kvs2 ev h
      cases kvs with
      | nil =>
        rw [fixMembersF_nil] at h
        simp only [Option.some.injEq, Prod.mk.injEq] at h
        obtain ⟨rfl, -⟩ := h
        rfl
      | cons hd rest =>
        obtain ⟨k, v⟩ := hd
        cases v with
        | obj kvs0 =>
          rw [fixMembersF_obj] at h
          cases hj : fixJF fuel (.obj kvs0) with
          | none => simp [hj] at h
          | some p =>
            obtain ⟨v2, ev1⟩ := p
            simp only [hj] at h
            cases hm : fixMembersF fuel rest with
            | none => simp [hm] at h
            | some q =>
              obtain ⟨rest2, ev2⟩ := q
              simp only [hm, Option.some.injEq, Prod.mk.injEq] at h
              obtain ⟨rfl, -⟩ := h
              obtain ⟨kvs2', rfl⟩ := fixJF_obj_shape fuel kvs0 v2 ev1 hj
              rw [frameM_cons]
              simp only [Bool.and_eq_true, decide_eq_true_eq]
              exact ⟨⟨trivial, by simpa [frameEnt, frameV_obj] using ihV _ _ _ hj⟩,
                ihM rest rest2 ev2 hm⟩
        | arr xs0 =>
          rw [fixMembersF_arr] at h
          cases hj : fixJF fuel (.arr xs0) with
          | none => simp [hj] at h
          | some p =>
            obtain ⟨v2, ev1⟩ := p
            simp only [hj] at h
            cases hm : fixMembersF fuel rest with
            | none => simp [hm] at h
            | some q =>
              obtain ⟨rest2, ev2⟩ := q
              simp only [hm, Option.some.injEq, Prod.mk.injEq] at h
              obtain ⟨rfl, -⟩ := h
              obtain ⟨xs2', rfl⟩ := fixJF_arr_shape fuel xs0 v2 ev1 hj
              rw [frameM_cons]
              simp only [Bool.and_eq_true, decide_eq_true_eq]
              exact ⟨⟨trivial, by simpa [frameEnt, frameV_arr] using ihV _ _ _ hj⟩,
                ihM rest rest2 ev2 hm⟩
        | str s =>
          rw [fixMembersF_str] at h
          by_cases hkc : k = cChainGenesisKey
          · rw [if_pos hkc] at h
            cases hl : loads s with
            | some e =>
              simp only [hl] at h
              cases hj : fixJF fuel e with
              | none => simp [hj] at h
              | some p =>
                obtain ⟨e2, ev1⟩ := p
                simp only [hj] at h
                cases hm : fixMembersF fuel rest with
                | none => simp [hm] at h
                | some q =>
                  obtain ⟨rest2, ev2⟩ := q
                  simp only [hm, Option.some.injEq, Prod.mk.injEq] at h
                  obtain ⟨rfl, -⟩ := h
                  rw [frameM_cons]
                  simp only [Bool.and_eq_true, decide_eq_true_eq]
                  exact ⟨⟨trivial, by simp [frameEnt, hkc]⟩, ihM rest rest2 ev2 hm⟩
            | none =>
              simp only [hl] at h
              cases hm : fixMembersF fuel rest with
              | none => simp [hm] at h
              | some q =>
                obtain ⟨rest2, ev2⟩ := q
                simp only [hm, Option.some.injEq, Prod.mk.injEq] at h
                obtain ⟨rfl, -⟩ := h
                rw [frameM_cons]
                simp only [Bool.and_eq_true, decide_eq_true_eq]
                exact ⟨⟨trivial, by simp [frameEnt]⟩, ihM rest rest2 ev2 hm⟩
          · rw [if_neg hkc] at h
            cases hm : fixMembersF fuel rest with
            | none => simp [hm] at h
            | some q =>
              obtain ⟨rest2, ev2⟩ := q
              simp only [hm, Option.some.injEq, Prod.mk.injEq] at h
              obtain ⟨rfl, -⟩ := h
              rw [frameM_cons]
              simp only [Bool.and_eq_true, decide_eq_true_eq]
              exact ⟨⟨trivial, by simp [frameEnt]⟩, ihM rest rest2 ev2 hm⟩
        | null =>
          rw [fixMembersF_null] at h
          cases hm : fixMembersF fuel rest with
          | none => simp [hm] at h
          | some q =>
            obtain ⟨rest2, ev2⟩ := q
            simp only [hm, Option.some.injEq, Prod.mk.injEq] at h
            obtain ⟨rfl, -⟩ := h
            rw [frameM_cons]
            simp only [Bool.and_eq_true, decide_eq_true_eq]
            exact ⟨⟨trivial, by simp [frameEnt, frameV]⟩, ihM rest rest2 ev2 hm⟩
        | bool b =>
          rw [fixMembersF_bool] at h
          cases hm : fixMembersF fuel rest with
          | none => simp [hm] at h
          | some q =>
            obtain ⟨rest2, ev2⟩ := q
            simp only [hm, Option.some.injEq, Prod.mk.injEq] at h
            obtain ⟨rfl, -⟩ := h
            rw [frameM_cons]
            simp only [Bool.and_eq_true, decide_eq_true_eq]
            exact ⟨⟨trivial, by simp [frameEnt, frameV]⟩, ihM rest rest2 ev2 hm⟩
        | num n =>
          rw [fixMembersF_num] at h
          cases hm : fixMembersF fuel rest with
          | none => simp [hm] at h
          | some q =>
            obtain ⟨rest2, ev2⟩ := q
            simp only [hm, Option.some.injEq, Prod.mk.injEq] at h
            obtain ⟨rfl, -⟩ := h
            rw [frameM_cons]
            simp only [Bool.and_eq_true, decide_eq_true_eq]
            exact ⟨⟨trivial, by simp [frameEnt, frameV]⟩, ihM rest rest2 ev2 hm⟩
    · intro xs xs2 ev h
      cases xs with
      | nil =>
        rw [fixElemsF_nil] at h
        simp only [Option.some.injEq, Prod.mk.injEq] at h
        obtain ⟨rfl, -⟩ := h
        rfl
      | cons x rest =>
        rw [fixElemsF_cons] at h
        cases hj : fixJF fuel x with
        | none => simp [hj] at h
        | some p =>
          obtain ⟨x2, ev1⟩ := p
          simp only [hj] at h
          cases he : fixElemsF fuel rest with
          | none => simp [he] at h
          | some q =>
            obtain ⟨rest2, ev2⟩ := q
            simp only [he, Option.some.injEq, Prod.mk.injEq] at h
            obtain ⟨rfl, -⟩ := h
            rw [frameE_cons]
            simp only [Bool.and_eq_true]
            exact ⟨ihV x x2 ev1 hj, ihE rest rest2 ev2 he⟩

/-- C9: the normalizer modifies only string values stored under the key
`coinbase` (rewritten exactly as the coinbase fixer rewrites them) and
string values stored under the key `cChainGenesis` (the re-serialized
embedded document); every other key-value pair, every dict's key list,
and every list's length and element order are unchanged. -/
theorem C9_normalize_frame (x y : Json) (h : normalizeJson x = some y) :
    frameV x y = true := by
  rw [normalizeJson, fixCoinbaseInJson] at h
  cases hf : fixJF (Json.sizeJ x + 1) x with
  | none => rw [hf] at h; simp at h
  | some p =>
    obtain ⟨y', ev⟩ := p
    rw [hf] at h
    simp only [Option.map_some', Option.some.injEq] at h
    subst h
    exact (fix_frame (Json.sizeJ x + 1)).1 x _ ev hf

/-- Witness for C9 on a concrete genesis: the corrupted coinbase string
is truncated, the sibling entry is untouched, and the frame holds. -/
theorem C9_normalize_frame_witness :
    normalizeJson
        (.obj [("coinbase".toList,
                .str "0x1111111111111111111111111111111111111111111111111111111111111111".toList),
               ("gasLimit".toList, .num 8000000)]) =
      some (.obj [("coinbase".toList,
                   .str "0x1111111111111111111111111111111111111111".toList),
                  ("gasLimit".toList, .num 8000000)]) ∧
    frameV
        (.obj [("coinbase".toList,
                .str "0x1111111111111111111111111111111111111111111111111111111111111111".toList),
               ("gasLimit".toList, .num 8000000)])
        (.obj [("coinbase".toList,
                .str "0x1111111111111111111111111111111111111111".toList),
               ("gasLimit".toList, .num 8000000)]) = true :=
  ⟨by rfl, C9_normalize_frame _ _ (by rfl)⟩

/-- The alloc mapping of the spec's C4 scenario: the correct
40-hex-character key and the corrupted long key, both mapping to a
balance record, as dict keys. -/
def specC4AllocEntries : List (Str × Json) :=
  [("0x9011e888251ab053b7bd1cdb598db4f9ded94714".toList,
    .obj [("balance".toList, .str "1000000000000000000000".toList)]),
   ("0x000000000000000000009011e888251ab053b7bd1cdb598db4f9ded94714".toList,
    .obj [("balance".toList, .str "1000000000000000000000".toList)])]

/-- The genesis document of the spec's C4 scenario. -/
def specC4Doc : Json := .obj [("alloc".toList, .obj specC4AllocEntries)]

/-- C4 counterexample: normalizing the spec's two-key alloc genesis
returns the document unchanged — the corrupted long key does NOT
collapse to the 40-character key; both keys are still present.  The
fixer only ever rewrites string values stored under the key `coinbase`,
never dict keys. -/
theorem C4_no_collapse_counterexample :
    normalizeJson specC4Doc = some specC4Doc ∧
    Json.hasKey specC4AllocEntries
      "0x000000000000000000009011e888251ab053b7bd1cdb598db4f9ded94714".toList
        = true ∧
    Json.hasKey specC4AllocEntries
      "0x9011e888251ab053b7bd1cdb598db4f9ded94714".toList = true :=
  ⟨rfl, rfl, rfl⟩

/-- C4 amended: the normalizer never rewrites dict keys — the member
pass preserves every dict's key list exactly — and in particular the
spec's two-key alloc genesis passes through normalization unchanged. -/
theorem C4_amended_keys_unchanged :
    (∀ fuel kvs kvs2 ev, fixMembersF fuel kvs = some (kvs2, ev) →
      kvs2.map Prod.fst = kvs.map Prod.fst) ∧
    normalizeJson specC4Doc = some specC4Doc :=
  ⟨fun fuel kvs kvs2 ev h => fixMembers_keys kvs fuel kvs2 ev h, rfl⟩

/-- Witness for C4's amended theorem at the spec's alloc mapping. -/
theorem C4_amended_keys_unchanged_witness :
    fixMembersF 10 specC4AllocEntries = some (specC4AllocEntries, []) ∧
    specC4AllocEntries.map Prod.fst = specC4AllocEntries.map Prod.fst :=
  ⟨rfl, C4_amended_keys_unchanged.1 10 specC4AllocEntries specC4AllocEntries [] rfl⟩

/-! ## The RPC exporter: `export-blockchain-rpc.py`

The network is modelled by the outcome of each HTTP round trip: a
transport failure (`requests.exceptions.RequestException`), a response
body that is not JSON (`json.JSONDecodeError`), or a parsed JSON-RPC
response body, which is always a JSON object. -/

inductive RpcResp where
  | transportError : RpcResp
  | badJson : RpcResp
  | body (kvs : List (Str × Json)) : RpcResp

/-- `make_rpc_call` (lines 15–38): both exception paths and an `'error'`
member yield `None`; otherwise `result.get('result')`, where a missing
member and a JSON `null` both surface as Python `None`. -/
def makeRpcCall : RpcResp → Option Json
  | .transportError => none
  | .badJson => none
  | .body kvs =>
    if Json.hasKey kvs "error".toList then none
    else
      match Json.lookupKV kvs "result".toList with
      | none => none
      | some .null => none
      | some v => some v

/-- Python truthiness of a decoded JSON value. -/
def jsonTruthy : Json → Bool
  | .null => false
  | .bool b => b
  | .num n => decide (n ≠ 0)
  | .str s => decide (s ≠ [])
  | .arr xs => !xs.isEmpty
  | .obj kvs => !kvs.isEmpty

def pyHexDigit (c : Char) : Option Nat :=
  if '0' ≤ c ∧ c ≤ '9' then some (c.toNat - '0'.toNat)
  else if 'a' ≤ c ∧ c ≤ 'f' then some (c.toNat - 'a'.toNat + 10)
  else if 'A' ≤ c ∧ c ≤ 'F' then some (c.toNat - 'A'.toNat + 10)
  else none

def pyHexDigits : Str → Nat → Option Nat
  | [], acc => some acc
  | c :: rest, acc =>
    match pyHexDigit c with
    | none => none
    | some d => pyHexDigits rest (acc * 16 + d)

/-- `int(s, 16)`: an optional `0x`/`0X` prefix followed by at least one
hex digit (whitespace and signs, which no RPC response carries, are not
modelled); `none` is the uncaught `ValueError`. -/
def intBase16 : Str → Option Nat
  | '0' :: 'x' :: rest => if rest = [] then none else pyHexDigits rest 0
  | '0' :: 'X' :: rest => if rest = [] then none else pyHexDigits rest 0
  | s => if s = [] then none else pyHexDigits s 0

/-- `int(v, 16)` on a decoded JSON value: a `TypeError` (crash) unless
the value is a string. -/
def intOfJsonBase16 : Json → Option Nat
  | .str s => intBase16 s
  | _ => none

/-- `get_current_height` (lines 46–51): a falsy or absent result is
reported as height 0; a truthy result is parsed base 16, and a parse
failure is an uncaught exception (`none`). -/
def getCurrentHeight (r : RpcResp) : Option Nat :=
  match makeRpcCall r with
  | none => some 0
  | some v => if jsonTruthy v then intOfJsonBase16 v else some 0

/-- `d.get(k, dflt)`. -/
def jGetD (kvs : List (Str × Json)) (k : Str) (d : Json) : Json :=
  (Json.lookupKV kvs k).getD d

/-- `d.get(k)`: a missing member is Python `None`, serialized as `null`. -/
def jGetN (kvs : List (Str × Json)) (k : Str) : Json :=
  (Json.lookupKV kvs k).getD .null

/-- Lines 91–103: the JSONL block record built from one fetched block;
`none` is an uncaught conversion error in one of the `int(..., 16)`
calls. -/
def blockEntry (kvs : List (Str × Json)) : Option Json :=
  match intOfJsonBase16 (jGetD kvs "number".toList (.str "0x0".toList)),
        intOfJsonBase16 (jGetD kvs "timestamp".toList (.str "0x0".toList)),
        intOfJsonBase16 (jGetD kvs "gasUsed".toList (.str "0x0".toList)),
        intOfJsonBase16 (jGetD kvs "gasLimit".toList (.str "0x0".toList)),
        intOfJsonBase16 (jGetD kvs "difficulty".toList (.str "0x0".toList)) with
  | some num, some ts, some gu, some gl, some df =>
    some (.obj [("type".toList, .str "block".toList),
                ("number".toList, .num (Int.ofNat num)),
                ("hash".toList, jGetN kvs "hash".toList),
                ("parentHash".toList, jGetN kvs "parentHash".toList),
                ("timestamp".toList, .num (Int.ofNat ts)),
                ("gasUsed".toList, .num (Int.ofNat gu)),
                ("gasLimit".toList, .num (Int.ofNat gl)),
                ("difficulty".toList, .num (Int.ofNat df)),
                ("miner".toList, jGetN kvs "miner".toList),
                ("transactions".toList, jGetD kvs "transactions".toList (.arr [])),
                ("uncles".toList, jGetD kvs "uncles".toList (.arr []))])
  | _, _, _, _, _ => none

/-- The block-number range the export loop iterates:
`range(0, min(current_height + 1, 10))` (line 84). -/
def exportRange (h : Nat) : List Nat := List.range (min (h + 1) 10)

/-- The largest block number the sampling exporter will ever fetch. -/
def heightLimit : Nat := 9

/-- The metadata record (lines 72–77). -/
def metadataLine (h : Nat) : Json :=
  .obj [("version".toList, .str "1.0.0".toList),
        ("type".toList, .str "blockchain-export".toList),
        ("source".toList, .str "rpc".toList),
        ("height".toList, .num (Int.ofNat h))]

/-- The block loop (lines 84–107): a falsy fetch prints a failure and
writes nothing; a truthy non-dict block or a failed conversion is an
uncaught exception. -/
def exportBlocks (blocks : Nat → RpcResp) : List Nat → Option (List Json)
  | [] => some []
  | n :: rest =>
    match makeRpcCall (blocks n) with
    | none => exportBlocks blocks rest
    | some b =>
      if jsonTruthy b then
        match b with
        | .obj kvs =>
          match blockEntry kvs with
          | none => none
          | some e => (exportBlocks blocks rest).map (e :: ·)
        | _ => none
      else exportBlocks blocks rest

/-- What `export_blockchain` leaves behind: the output file's lines, or
`none` when the height-0 path returns before the file is opened, plus
whether the empty-chain warning was printed. -/
structure ExportResult where
  file : Option (List Json)
  warnedEmpty : Bool

/-- `export_blockchain` (lines 53–109). -/
def exportBlockchain (hr : RpcResp) (blocks : Nat → RpcResp) :
    Option ExportResult :=
  match getCurrentHeight hr with
  | none => none
  | some h =>
    if h = 0 then some ⟨none, true⟩
    else
      match exportBlocks blocks (exportRange h) with
      | none => none
      | some lines => some ⟨some (metadataLine h :: lines), false⟩

/-- The `type` member of one export line. -/
def lineType : Json → Option Json
  | .obj kvs => Json.lookupKV kvs "type".toList
  | _ => none

/-- The `number` member of one export line. -/
def lineBlockNumber : Json → Option Json
  | .obj kvs => Json.lookupKV kvs "number".toList
  | _ => none

/-- The C3 scenario's block responses: blocks 0–3 resolve. -/
def specC3Blocks : Nat → RpcResp
  | 0 => .body [("result".toList, .obj [("number".toList, .str "0x0".toList)])]
  | 1 => .body [("result".toList, .obj [("number".toList, .str "0x1".toList)])]
  | 2 => .body [("result".toList, .obj [("number".toList, .str "0x2".toList)])]
  | 3 => .body [("result".toList, .obj [("number".toList, .str "0x3".toList)])]
  | _ => .transportError

/-- C3: the exporter iterates exactly the block numbers 0 through
`min(height, heightLimit)` inclusive, and in the concrete scenario —
height query returning `0x3`, blocks 0,1,2,3 resolving — the export file
is exactly one metadata line followed by four block lines with strictly
increasing block numbers 0,1,2,3. -/
theorem C3_export_iterates_range :
    (∀ h n, n ∈ exportRange h ↔ n ≤ min h heightLimit) ∧
    (∃ e0 e1 e2 e3,
      exportBlockchain (.body [("result".toList, .str "0x3".toList)]) specC3Blocks =
        some ⟨some [metadataLine 3, e0, e1, e2, e3], false⟩ ∧
      lineType (metadataLine 3) = some (.str "blockchain-export".toList) ∧
      lineType e0 = some (.str "block".toList) ∧
      lineType e1 = some (.str "block".toList) ∧
      lineType e2 = some (.str "block".toList) ∧
      lineType e3 = some (.str "block".toList) ∧
      lineBlockNumber e0 = some (.num 0) ∧
      lineBlockNumber e1 = some (.num 1) ∧
      lineBlockNumber e2 = some (.num 2) ∧
      lineBlockNumber e3 = some (.num 3)) := by
  constructor
  · intro h n
    simp only [exportRange, heightLimit, List.mem_range]
    omega
  · exact ⟨_, _, _, _, rfl, rfl, rfl, rfl, rfl, rfl, rfl, rfl, rfl, rfl⟩

/-- C7: whenever the height query reports 0, the exporter warns and
returns before the output file is opened — no file is created, not even
a metadata-only one — regardless of what the block fetches would do. -/
theorem C7_height_zero_no_file (hr : RpcResp) (blocks : Nat → RpcResp)
    (h : getCurrentHeight hr = some 0) :
    exportBlockchain hr blocks = some ⟨none, true⟩ := by
  simp [exportBlockchain, h]

/-- Witness for C7: a well-formed RPC reply carrying height `0x0`. -/
theorem C7_height_zero_no_file_witness :
    exportBlockchain (.body [("result".toList, .str "0x0".toList)])
      (fun _ => .transportError) = some ⟨none, true⟩ :=
  C7_height_zero_no_file _ _ (by rfl)

/-- C10: each height-query failure mode — transport failure, a non-JSON
response, or a JSON-RPC reply carrying an `error` member — is reported
as height 0, and the exporter then takes the same empty-chain path as a
genuine height-`0x0` reply: warning, no output file, indistinguishable
results. -/
theorem C10_failed_height_as_empty_chain (blocks : Nat → RpcResp) :
    getCurrentHeight .transportError = some 0 ∧
    getCurrentHeight .badJson = some 0 ∧
    (∀ kvs, Json.hasKey kvs "error".toList = true →
      getCurrentHeight (.body kvs) = some 0) ∧
    exportBlockchain .transportError blocks =
      exportBlockchain (.body [("result".toList, .str "0x0".toList)]) blocks ∧
    exportBlockchain .badJson blocks =
      exportBlockchain (.body [("result".toList, .str "0x0".toList)]) blocks ∧
    (∀ kvs, Json.hasKey kvs "error".toList = true →
      exportBlockchain (.body kvs) blocks =
        exportBlockchain (.body [("result".toList, .str "0x0".toList)]) blocks) ∧
    exportBlockchain .transportError blocks = some ⟨none, true⟩ := by
  refine ⟨rfl, rfl, ?_, rfl, rfl, ?_, rfl⟩
  · intro kvs hk
    have hk2 : Json.hasKey kvs ['e', 'r', 'r', 'o', 'r'] = true := hk
    simp [getCurrentHeight, makeRpcCall, hk2]
  · intro kvs hk
    have hk2 : Json.hasKey kvs ['e', 'r', 'r', 'o', 'r'] = true := hk
    simp [exportBlockchain, getCurrentHeight, makeRpcCall, hk2]
    rfl

/-- Witness for C10 at a concrete `error`-carrying reply. -/
theorem C10_failed_height_as_empty_chain_witness :
    getCurrentHeight (.body [("error".toList, .obj [])]) = some 0 ∧
    exportBlockchain (.body [("error".toList, .obj [])])
        (fun _ => .transportError) =
      exportBlockchain (.body [("result".toList, .str "0x0".toList)])
        (fun _ => .transportError) :=
  ⟨(C10_failed_height_as_empty_chain (fun _ => .transportError)).2.2.1
     [("error".toList, .obj [])] rfl,
   (C10_failed_height_as_empty_chain (fun _ => .transportError)).2.2.2.2.2.1
     [("error".toList, .obj [])] rfl⟩

/-! ## The export analyzer: `read-migrated-state.py`, lines 48–92

The stream loop over the JSONL export.  Python's cross-type equalities
(`True == 1`) are not modelled; `key_id` values are scalars in every
export this tool reads. -/

/-- Equality of hashable (scalar) JSON values, as used by the
`unique_keys` set. -/
def scalarEq : Json → Json → Bool
  | .null, .null => true
  | .bool a, .bool b => decide (a = b)
  | .num a, .num b => decide (a = b)
  | .str a, .str b => decide (a = b)
  | _, _ => false

/-- `unique_keys.add(key_id)`. -/
def addKey (s : List Json) (x : Json) : List Json :=
  if s.any (scalarEq x) then s else s ++ [x]

/-- Python `v != 0` for a decoded JSON value. -/
def pyNeZero : Json → Bool
  | .num n => decide (n ≠ 0)
  | .bool b => b
  | _ => true

/-- The analyzer's running counters (lines 48–50). -/
structure AState where
  blockCount : Nat
  stateCount : Nat
  uniqueKeys : List Json

def initAState : AState := ⟨0, 0, []⟩

/-- One iteration of the stream loop (lines 53–77): an unparseable line
is skipped by `except json.JSONDecodeError: continue` — and not counted;
a `metadata` entry is echoed and skipped; a `block` entry bumps the
block counter and collects `key_id`; otherwise a truthy nonzero
`bucket` bumps the state counter.  `none` models the uncaught
`AttributeError` of `entry.get` on a non-dict line and the uncaught
`TypeError` of adding an unhashable `key_id` to the set. -/
def analyzeLine (st : AState) (line : Str) : Option AState :=
  match loads line with
  | none => some st
  | some (.obj kvs) =>
    match Json.lookupKV kvs "type".toList with
    | some (.str t) =>
      if t = "metadata".toList then some st
      else if t = "block".toList then
        match jGetD kvs "key_id".toList (.str []) with
        | .obj _ => none
        | .arr _ => none
        | kid =>
          some ⟨st.blockCount + 1, st.stateCount, addKey st.uniqueKeys kid⟩
      else if jsonTruthy (jGetN kvs "bucket".toList) &&
          pyNeZero (jGetN kvs "bucket".toList) then
        some ⟨st.blockCount, st.stateCount + 1, st.uniqueKeys⟩
      else some st
    | _ =>
      if jsonTruthy (jGetN kvs "bucket".toList) &&
          pyNeZero (jGetN kvs "bucket".toList) then
        some ⟨st.blockCount, st.stateCount + 1, st.uniqueKeys⟩
      else some st
  | some _ => none

def analyzeStream : AState → List Str → Option AState
  | st, [] => some st
  | st, line :: rest =>
    match analyzeLine st line with
    | none => none
    | some st2 => analyzeStream st2 rest

/-- What the final summary prints (lines 82–85): total block entries,
total state entries, and the number of unique block keys — and nothing
else. -/
structure AnalyzeSummary where
  blockCount : Nat
  stateCount : Nat
  uniqueKeyCount : Nat

/-- The whole stream analysis, reduced to the printed summary. -/
def analyzeExport (lines : List Str) : Option AnalyzeSummary :=
  (analyzeStream initAState lines).map
    (fun st => ⟨st.blockCount, st.stateCount, st.uniqueKeys.length⟩)

/-- A metadata line as the analyzer recognizes one: `type` is the
string `metadata`, `height` declares the chain height. -/
def analyzerMetaLine (h : Nat) : Str :=
  dumps (.obj [("type".toList, .str "metadata".toList),
               ("height".toList, .num (Int.ofNat h))])

/-- A well-formed block line of the export stream. -/
def specBlockLine : Str :=
  dumps (.obj [("type".toList, .str "block".toList),
               ("key_id".toList, .str "b1".toList)])

/-- C5 counterexample: a stream whose metadata declares height 5 but
which carries a single block record yields exactly the same analyzer
output as a complete height-0 stream — the final report carries no
comparison of the observed block count against the declared height, so
no truncation discrepancy is ever flagged. -/
theorem C5_no_truncation_flag_counterexample :
    analyzeExport [analyzerMetaLine 5, specBlockLine] =
      analyzeExport [analyzerMetaLine 0, specBlockLine] ∧
    analyzeExport [analyzerMetaLine 5, specBlockLine] = some ⟨1, 0, 1⟩ :=
  ⟨rfl, rfl⟩

/-- C5 amended: the analyzer's summary is entirely independent of the
height the metadata record declares — the metadata line is echoed and
skipped, and no block-count comparison takes place. -/
theorem C5_amended_summary_ignores_height (h1 h2 : Nat) (rest : List Str) :
    analyzeExport (analyzerMetaLine h1 :: rest) =
      analyzeExport (analyzerMetaLine h2 :: rest) := by
  have hstep : ∀ h, analyzeLine initAState (analyzerMetaLine h) = some initAState := by
    intro h
    have hwf : Json.wfV (.obj [("type".toList, .str "metadata".toList),
        ("height".toList, .num (Int.ofNat h))]) = true := by rfl
    have hld := loads_dumps _ hwf
    rw [analyzerMetaLine, analyzeLine]
    simp only [hld]
    rfl
  simp only [analyzeExport, analyzeStream, hstep]

/-- C6 counterexample: a malformed line is tolerated but NOT counted:
inserting an unparseable line leaves the analyzer output literally
identical — no anomaly count of malformed lines exists anywhere in the
result. -/
theorem C6_uncounted_malformed_counterexample :
    loads "\x7b".toList = none ∧
    analyzeExport ["\x7b".toList, specBlockLine] =
      analyzeExport [specBlockLine] ∧
    analyzeExport ["\x7b".toList, specBlockLine] = some ⟨1, 0, 1⟩ :=
  ⟨rfl, rfl, rfl⟩

/-- C6 amended: the stream loop never fails on a malformed line — each
line that does not parse as JSON is skipped silently (`continue`), with
processing of all remaining lines unaffected and no count kept. -/
theorem C6_amended_malformed_skipped (st : AState) (pre post : List Str)
    (bad : Str) (hbad : loads bad = none) :
    analyzeStream st (pre ++ bad :: post) = analyzeStream st (pre ++ post) := by
  induction pre generalizing st with
  | nil =>
    simp only [List.nil_append, analyzeStream, analyzeLine, hbad]
  | cons l pre ih =>
    simp only [List.cons_append, analyzeStream]
    cases analyzeLine st l with
    | none => rfl
    | some st2 => exact ih st2

/-- Witness for C6's amended theorem: a lone `\x7b` line inside a
one-block stream. -/
theorem C6_amended_malformed_skipped_witness :
    loads "\x7b".toList = none ∧
    analyzeStream initAState ("\x7b".toList :: [specBlockLine]) =
      analyzeStream initAState [specBlockLine] :=
  ⟨rfl, C6_amended_malformed_skipped initAState [] [specBlockLine]
    "\x7b".toList rfl⟩

/-! ## `fix_genesis_file`: backup discipline (lines 42–67) -/

/-- A newline followed by the `indent=2` indentation of one nesting
level. -/
def newlineIndent (level : Nat) : Str := '\n' :: List.replicate (2 * level) ' '

mutual
/-- `json.dump(data, f, indent=2)`: CPython's pretty encoder with item
separator `','` + newline + indent and key separator `': '`; empty
containers print inline. -/
def dumpIndV : Json → Nat → Str
  | .num i, _ => intDump i
  | .str s, _ => dumpStr s
  | .bool false, _ => ['f', 'a', 'l', 's', 'e']
  | .bool true, _ => ['t', 'r', 'u', 'e']
  | .null, _ => ['n', 'u', 'l', 'l']
  | .arr [], _ => ['[', ']']
  | .arr (x :: xs), level =>
    '[' :: (newlineIndent (level + 1) ++ dumpIndV x (level + 1) ++
      dumpIndElems xs (level + 1) ++ newlineIndent level ++ [']'])
  | .obj [], _ => ['{', '}']
  | .obj ((k, v) :: kvs), level =>
    '{' :: (newlineIndent (level + 1) ++ dumpStr k ++ ':' :: ' ' ::
      dumpIndV v (level + 1) ++ dumpIndMembers kvs (level + 1) ++
      newlineIndent level ++ ['}'])
def dumpIndMembers : List (Str × Json) → Nat → Str
  | [], _ => []
  | (k, v) :: rest, level =>
    ',' :: (newlineIndent level ++ dumpStr k ++ ':' :: ' ' ::
      dumpIndV v level ++ dumpIndMembers rest level)
def dumpIndElems : List Json → Nat → Str
  | [], _ => []
  | x :: rest, level =>
    ',' :: (newlineIndent level ++ dumpIndV x level ++ dumpIndElems rest level)
end

/-- The serialization `json.dump(data, f, indent=2)` writes. -/
def dumpsIndent2 (x : Json) : Str := dumpIndV x 0

/-- The two files `fix_genesis_file` touches: the genesis file and its
`.backup` sibling (`none` = does not exist). -/
structure FS where
  main : Option Str
  backup : Option Str

/-- `fix_genesis_file` (lines 42–67): read and parse the file; create
the backup only if absent (serialized `indent=2` from the parsed data);
fix; write back `indent=2`.  Any exception — unreadable file, a JSON
parse error, or a crash inside the fixer — is caught by the broad
`except`, leaving the main file unwritten (the backup, written earlier,
stays). -/
def fixGenesisFile (fs : FS) : FS :=
  match fs.main with
  | none => fs
  | some content =>
    match loads content with
    | none => fs
    | some data =>
      let backup2 : Option Str :=
        match fs.backup with
        | some b => some b
        | none => some (dumpsIndent2 data)
      match fixCoinbaseInJson data with
      | none => ⟨fs.main, backup2⟩
      | some (fixed, _) => ⟨some (dumpsIndent2 fixed), backup2⟩

/-- C8: the fixed file is written only when a backup exists afterwards;
an existing `.backup` is never overwritten; a missing backup is created
from the original file's parsed contents; and the backup is stable
across repeated runs. -/
theorem C8_backup_discipline (fs : FS) :
    ((fixGenesisFile fs).main ≠ fs.main → (fixGenesisFile fs).backup ≠ none) ∧
    (∀ b, fs.backup = some b → (fixGenesisFile fs).backup = some b) ∧
    (∀ content data, fs.main = some content → fs.backup = none →
      loads content = some data →
      (fixGenesisFile fs).backup = some (dumpsIndent2 data)) ∧
    (fixGenesisFile (fixGenesisFile fs)).backup = (fixGenesisFile fs).backup := by
  obtain ⟨m, bk⟩ := fs
  refine ⟨?_, ?_, ?_, ?_⟩
  · intro hne
    cases m with
    | none => exact absurd rfl hne
    | some content =>
      cases hl : loads content with
      | none => simp [fixGenesisFile, hl] at hne
      | some data =>
        cases hfix : fixCoinbaseInJson data with
        | none => simp [fixGenesisFile, hl, hfix] at hne
        | some p =>
          obtain ⟨fixed, ev⟩ := p
          cases bk <;> simp [fixGenesisFile, hl, hfix]
  · intro b hb
    subst hb
    cases m with
    | none => rfl
    | some content =>
      cases hl : loads content with
      | none => simp [fixGenesisFile, hl]
      | some data =>
        cases hfix : fixCoinbaseInJson data with
        | none => simp [fixGenesisFile, hl, hfix]
        | some p =>
          obtain ⟨fixed, ev⟩ := p
          simp [fixGenesisFile, hl, hfix]
  · intro content data hm hb hl
    subst hm
    subst hb
    cases hfix : fixCoinbaseInJson data with
    | none => simp [fixGenesisFile, hl, hfix]
    | some p =>
      obtain ⟨fixed, ev⟩ := p
      simp [fixGenesisFile, hl, hfix]
  · cases m with
    | none => rfl
    | some content =>
      cases hl : loads content with
      | none => simp [fixGenesisFile, hl]
      | some data =>
        cases hfix : fixCoinbaseInJson data with
        | none =>
          simp only [fixGenesisFile, hl, hfix]
          cases bk <;> simp [fixGenesisFile, hl, hfix]
        | some p =>
          obtain ⟨fixed, ev⟩ := p
          simp only [fixGenesisFile, hl, hfix]
          cases hl2 : loads (dumpsIndent2 fixed) with
          | none => cases bk <;> simp [fixGenesisFile, hl2]
          | some data2 =>
            cases hfix2 : fixCoinbaseInJson data2 with
            | none => cases bk <;> simp [fixGenesisFile, hl2, hfix2]
            | some p2 =>
              obtain ⟨fixed2, ev2⟩ := p2
              cases bk <;> simp [fixGenesisFile, hl2, hfix2]

/-- Witness for C8: an empty-object genesis with no backup gets one
created from its parsed contents; an existing backup survives a run. -/
theorem C8_backup_discipline_witness :
    (fixGenesisFile ⟨some "\x7b\x7d".toList, none⟩).backup =
      some (dumpsIndent2 (.obj [])) ∧
    (fixGenesisFile ⟨some "\x7b\x7d".toList, some "orig".toList⟩).backup =
      some "orig".toList :=
  ⟨(C8_backup_discipline ⟨some "\x7b\x7d".toList, none⟩).2.2.1
     "\x7b\x7d".toList (.obj []) rfl rfl rfl,
   (C8_backup_discipline ⟨some "\x7b\x7d".toList, some "orig".toList⟩).2.1
     "orig".toList rfl⟩
